import Mathlib

set_option maxRecDepth 100000

/-!
Verification of the pygit merkle-tree version-control core.

The Python sources (src/merkle_tree/...) are shallowly embedded here:
Python `str` is modelled as `List Char`, Python `bytes` as `List Nat`
(byte values), exceptions as `Except PyErr`, and the filesystem /
object-store state is threaded explicitly.  SHA-1 and the UTF-8 codec
are implemented concretely so that every hash value appearing in a
theorem is the value the Python code computes.
-/

namespace PyGit

/-- Python `str` values: a list of unicode code points. -/
abbrev Str := List Char

/-- Python `bytes` values: a list of byte values. -/
abbrev Bytes := List Nat

/-- Shorthand turning a Lean string literal into the `Str` model. -/
def chars (s : String) : Str := s.data

/-- Truncation to a 32-bit word, `x % 2**32`. -/
def w32 (x : Nat) : Nat := x % 4294967296

/-- 32-bit left rotation by `k` (for `x < 2**32`). -/
def rotl (k x : Nat) : Nat := w32 ((x <<< k) ||| (x >>> (32 - k)))

/-- Lowercase hexadecimal digit characters, `"0123456789abcdef"[n]`
(total: indices past 15 give a fallback, never reached by callers). -/
def hexDigit : Nat → Char
  | 0 => '0' | 1 => '1' | 2 => '2' | 3 => '3'
  | 4 => '4' | 5 => '5' | 6 => '6' | 7 => '7'
  | 8 => '8' | 9 => '9' | 10 => 'a' | 11 => 'b'
  | 12 => 'c' | 13 => 'd' | 14 => 'e' | _ => 'f'

/-- SHA-1 message padding: append 0x80, zeros, and the 64-bit big-endian
bit length so the total length is a multiple of 64 bytes. -/
def sha1Pad (msg : Bytes) : Bytes :=
  let l := msg.length
  let padLen := (55 + 64 - l % 64) % 64
  msg ++ [128] ++ List.replicate padLen 0 ++
    (List.range 8).map (fun i => ((8 * l) >>> (8 * (7 - i))) % 256)

/-- Big-endian 32-bit words from bytes (length a multiple of 4). -/
def bytesToWords : Bytes → List Nat
  | b0 :: b1 :: b2 :: b3 :: rest =>
      (((b0 <<< 24) ||| (b1 <<< 16)) ||| ((b2 <<< 8) ||| b3)) :: bytesToWords rest
  | _ => []

/-- Split a word list into 16-word chunks; the fuel (instantiated with the
list length) only serves Lean's termination checker. -/
def chunks16 : Nat → List Nat → List (List Nat)
  | _, [] => []
  | 0, _ :: _ => []
  | f + 1, w :: ws => (w :: ws).take 16 :: chunks16 f ((w :: ws).drop 16)

/-- SHA-1 message-schedule expansion from 16 to 80 words. -/
def sha1Expand (ws : List Nat) : List Nat :=
  (List.range 64).foldl
    (fun w _ =>
      w ++ [rotl 1 (((w.getD (w.length - 3) 0) ^^^ (w.getD (w.length - 8) 0)) ^^^
                    ((w.getD (w.length - 14) 0) ^^^ (w.getD (w.length - 16) 0)))])
    ws

/-- SHA-1 round function. -/
def sha1F (t b c d : Nat) : Nat :=
  if t < 20 then (b &&& c) ||| ((b ^^^ 4294967295) &&& d)
  else if t < 40 then (b ^^^ c) ^^^ d
  else if t < 60 then ((b &&& c) ||| (b &&& d)) ||| (c &&& d)
  else (b ^^^ c) ^^^ d

/-- SHA-1 round constants. -/
def sha1K (t : Nat) : Nat :=
  if t < 20 then 1518500249
  else if t < 40 then 1859775393
  else if t < 60 then 2400959708
  else 3395469782

/-- One SHA-1 block compression. -/
def sha1Compress (h : List Nat) (chunk : List Nat) : List Nat :=
  let w := sha1Expand chunk
  let h0 := h.getD 0 0
  let h1 := h.getD 1 0
  let h2 := h.getD 2 0
  let h3 := h.getD 3 0
  let h4 := h.getD 4 0
  let s := (List.range 80).foldl
    (fun (st : Nat × Nat × Nat × Nat × Nat) t =>
      let a := st.1
      let b := st.2.1
      let c := st.2.2.1
      let d := st.2.2.2.1
      let e := st.2.2.2.2
      (w32 (rotl 5 a + sha1F t b c d + e + sha1K t + w.getD t 0),
       a, rotl 30 b, c, d))
    (h0, h1, h2, h3, h4)
  [w32 (h0 + s.1), w32 (h1 + s.2.1), w32 (h2 + s.2.2.1),
   w32 (h3 + s.2.2.2.1), w32 (h4 + s.2.2.2.2)]

/-- SHA-1 digest as the 40-character lowercase hex string
(`hashlib.sha1(data).hexdigest()`). -/
def sha1Hex (msg : Bytes) : Str :=
  let ws := bytesToWords (sha1Pad msg)
  let hs := (chunks16 ws.length ws).foldl sha1Compress
    [1732584193, 4023233417, 2562383102, 271733878, 3285377520]
  (hs.map (fun wv => (List.range 8).map (fun i => hexDigit ((wv >>> (4 * (7 - i))) % 16)))).flatten

/-- UTF-8 encoding of one code point. -/
def utf8EncodeChar (n : Nat) : Bytes :=
  if n < 128 then [n]
  else if n < 2048 then [192 + n / 64, 128 + n % 64]
  else if n < 65536 then [224 + n / 4096, 128 + n / 64 % 64, 128 + n % 64]
  else [240 + n / 262144, 128 + n / 4096 % 64, 128 + n / 64 % 64, 128 + n % 64]

/-- `str.encode('utf-8')`. -/
def utf8Encode (s : Str) : Bytes := (s.map (fun c => utf8EncodeChar c.toNat)).flatten

/-- Strict UTF-8 decoding (continuation-byte, overlong, surrogate and
range checks as in Python's `bytes.decode('utf-8')`); the fuel is
instantiated with the byte count and only serves termination. -/
def utf8DecodeAux : Nat → Bytes → Option Str
  | _, [] => some []
  | 0, _ :: _ => none
  | f + 1, b :: rest =>
    if b < 128 then (utf8DecodeAux f rest).map (fun cs => Char.ofNat b :: cs)
    else if b < 194 then none
    else if b < 224 then
      match rest with
      | b2 :: rest2 =>
        if 128 ≤ b2 ∧ b2 < 192 then
          (utf8DecodeAux f rest2).map (fun cs => Char.ofNat ((b - 192) * 64 + (b2 - 128)) :: cs)
        else none
      | [] => none
    else if b < 240 then
      match rest with
      | b2 :: b3 :: rest2 =>
        if 128 ≤ b2 ∧ b2 < 192 ∧ 128 ≤ b3 ∧ b3 < 192 then
          let n := (b - 224) * 4096 + (b2 - 128) * 64 + (b3 - 128)
          if n < 2048 ∨ (55296 ≤ n ∧ n < 57344) then none
          else (utf8DecodeAux f rest2).map (fun cs => Char.ofNat n :: cs)
        else none
      | _ => none
    else if b < 245 then
      match rest with
      | b2 :: b3 :: b4 :: rest2 =>
        if 128 ≤ b2 ∧ b2 < 192 ∧ 128 ≤ b3 ∧ b3 < 192 ∧ 128 ≤ b4 ∧ b4 < 192 then
          let n := (b - 240) * 262144 + (b2 - 128) * 4096 + (b3 - 128) * 64 + (b4 - 128)
          if n < 65536 ∨ 1114112 ≤ n then none
          else (utf8DecodeAux f rest2).map (fun cs => Char.ofNat n :: cs)
        else none
      | _ => none
    else none

/-- `bytes.decode('utf-8')`, `none` on invalid input. -/
def utf8Decode (b : Bytes) : Option Str := utf8DecodeAux b.length b

/-- Decimal rendering of a natural number, `str(n)`; the fuel is
instantiated with `n + 1` and only serves termination. -/
def natToStrAux : Nat → Nat → Str → Str
  | 0, _, acc => acc
  | f + 1, n, acc =>
      if n < 10 then hexDigit n :: acc
      else natToStrAux f (n / 10) (hexDigit (n % 10) :: acc)

/-- `str(n)` for a natural number. -/
def natToStr (n : Nat) : Str := natToStrAux (n + 1) n []



/-- `data.find(b'\x00')`: index of the first null byte, if any. -/
def findNull : Bytes → Option Nat
  | [] => none
  | b :: rest => if b = 0 then some 0 else (findNull rest).map (fun i => i + 1)

/-- Python exception values raised by the embedded code. -/
inductive PyErr where
  | valueError (msg : Str)
  | fileNotFound (msg : Str)
  | unicodeDecodeError
  | attributeError
deriving DecidableEq, Repr

deriving instance DecidableEq for Except

/-- Python's six ASCII whitespace characters (the code only ever strips
ASCII data, so the further unicode whitespace of `str.strip` is moot). -/
def isPySpace (c : Char) : Bool :=
  c == ' ' || c == '\t' || c == '\n' || c == '\r' || c == '\x0b' || c == '\x0c'

/-- `str.strip()`. -/
def pyStrip (s : Str) : Str :=
  ((s.dropWhile isPySpace).reverse.dropWhile isPySpace).reverse

/-- `str.split(sep)` for a one-character separator: keeps empty parts. -/
def splitOnChar (sep : Char) : Str → List Str
  | [] => [[]]
  | c :: rest =>
    match splitOnChar sep rest with
    | [] => [[]]
    | part :: parts => if c == sep then [] :: part :: parts else (c :: part) :: parts

/-- `str.split()` with no separator: split on whitespace runs, dropping
empties; the fuel (instantiated with `length + 1`) only serves termination. -/
def pyWsSplitAux : Nat → Str → List Str
  | 0, _ => []
  | f + 1, s =>
    let s1 := s.dropWhile isPySpace
    if s1 = [] then []
    else s1.takeWhile (fun c => !isPySpace c) :: pyWsSplitAux f (s1.dropWhile (fun c => !isPySpace c))

/-- `str.split()` with no separator argument. -/
def pyWsSplit (s : Str) : List Str := pyWsSplitAux (s.length + 1) s

/-- `sep.join(parts)` for a one-character separator. -/
def joinWith (sep : Char) : List Str → Str
  | [] => []
  | [x] => x
  | x :: y :: xs => x ++ sep :: joinWith sep (y :: xs)

/-- Leap year test of the proleptic Gregorian calendar used by `datetime`. -/
def isLeap (y : Nat) : Bool := (y % 4 == 0 && y % 100 != 0) || y % 400 == 0

/-- Days in a month, as validated by `datetime`. -/
def daysInMonth (y m : Nat) : Nat :=
  if m = 2 then (if isLeap y then 29 else 28)
  else if m = 4 ∨ m = 6 ∨ m = 9 ∨ m = 11 then 30 else 31

/-- Success of `datetime.strptime(s, "%Y-%m-%d %H:%M:%S")` on the
zero-padded strings this code produces and re-parses. -/
def validTs (s : Str) : Bool :=
  match s with
  | [y1, y2, y3, y4, c1, m1, m2, c2, d1, d2, c3, h1, h2, c4, mi1, mi2, c5, s1, s2] =>
    ([y1, y2, y3, y4, m1, m2, d1, d2, h1, h2, mi1, mi2, s1, s2].all (fun c => c.isDigit)) &&
    (c1 == '-' && c2 == '-' && c3 == ' ' && c4 == ':' && c5 == ':') &&
    (let y := (((y1.toNat - 48) * 10 + (y2.toNat - 48)) * 10 + (y3.toNat - 48)) * 10 + (y4.toNat - 48)
     let m := (m1.toNat - 48) * 10 + m2.toNat - 48
     let d := (d1.toNat - 48) * 10 + d2.toNat - 48
     let h := (h1.toNat - 48) * 10 + h2.toNat - 48
     let mi := (mi1.toNat - 48) * 10 + mi2.toNat - 48
     let sec := (s1.toNat - 48) * 10 + s2.toNat - 48
     decide (1 ≤ y ∧ 1 ≤ m ∧ m ≤ 12 ∧ 1 ≤ d ∧ d ≤ daysInMonth y m ∧ h ≤ 23 ∧ mi ≤ 59 ∧ sec ≤ 59))
  | _ => false

/-- `HashCalculator.hash_object(obj_type, content)` for byte content:
SHA-1 over the framing `"<type> <len>\x00" + content`. -/
def hash_object (obj_type : Str) (content : Bytes) : Str :=
  sha1Hex (utf8Encode (obj_type ++ ' ' :: natToStr content.length ++ ['\x00']) ++ content)

/-- `HashCalculator.hash_object` for string content (encoded first, so the
declared length is the byte length). -/
def hashObjectStr (obj_type : Str) (content : Str) : Str :=
  hash_object obj_type (utf8Encode content)

/-- A `TreeEntry` record (`mode`, `obj_type`, `hash`, `name`). -/
structure TreeEntry where
  mode : Str
  obj_type : Str
  hash : Str
  name : Str
deriving DecidableEq, Repr

/-- A `Tree` object: the insertion-ordered name-keyed entry dict plus the
lazily cached `_hash` and `_content` fields. -/
structure Tree where
  entries : List TreeEntry
  cachedHash : Option Str
  cachedContent : Option Str
deriving DecidableEq, Repr

/-- `Tree()`. -/
def Tree.new : Tree := ⟨[], none, none⟩

/-- `self.entries[entry.name] = entry` on an insertion-ordered dict:
replace in place if the name is present, else append. -/
def dictInsert (es : List TreeEntry) (e : TreeEntry) : List TreeEntry :=
  if es.any (fun x => x.name == e.name) then
    es.map (fun x => if x.name == e.name then e else x)
  else es ++ [e]

/-- Code-point lexicographic `<=` on strings (Python string comparison). -/
def strLe : Str → Str → Bool
  | [], _ => true
  | _ :: _, [] => false
  | a :: as, b :: bs => if a < b then true else if b < a then false else strLe as bs

/-- Stable insertion into a name-sorted entry list. -/
def insertEntry (e : TreeEntry) : List TreeEntry → List TreeEntry
  | [] => [e]
  | x :: xs => if strLe e.name x.name then e :: x :: xs else x :: insertEntry e xs

/-- `sorted(self.entries.values(), key=lambda x: x.name)` (stable sort). -/
def sortEntries (es : List TreeEntry) : List TreeEntry := es.foldr insertEntry []

/-- One line `"<mode> <obj_type> <hash>\t<name>"` of the tree content. -/
def entryLine (e : TreeEntry) : Str :=
  e.mode ++ ' ' :: e.obj_type ++ ' ' :: e.hash ++ '\t' :: e.name

/-- The canonical tree content: name-sorted entry lines joined by newlines
(`Tree._get_content` on a cold cache). -/
def treeContent (es : List TreeEntry) : Str := joinWith '\n' ((sortEntries es).map entryLine)

/-- `Tree._get_content()`: memoizes the canonical content. -/
def Tree.get_content (t : Tree) : Str × Tree :=
  match t.cachedContent with
  | some c => (c, t)
  | none =>
    let c := treeContent t.entries
    (c, { t with cachedContent := some c })

/-- The `Tree.hash` property: memoizes content and hash together. -/
def Tree.hashProp (t : Tree) : Str × Tree :=
  match t.cachedHash with
  | some h => (h, t)
  | none =>
    let p := t.get_content
    let h := hashObjectStr (chars "tree") p.1
    (h, { p.2 with cachedHash := some h })

/-- `Tree.add_entry`: dict insert and reset of both cached fields. -/
def Tree.add_entry (t : Tree) (e : TreeEntry) : Tree :=
  ⟨dictInsert t.entries e, none, none⟩

/-- A `Blob` object; `content` is the raw byte payload (`str` arguments
are UTF-8 encoded by the constructor, modelled by `Blob.ofStr`). -/
structure Blob where
  content : Bytes
deriving DecidableEq, Repr

/-- `Blob(content)` for a string argument. -/
def Blob.ofStr (s : Str) : Blob := ⟨utf8Encode s⟩

/-- `Blob.size`. -/
def Blob.size (b : Blob) : Nat := b.content.length

/-- The `Blob.hash` property (deterministic, so the lazy cache is
unobservable and elided). -/
def Blob.hash (b : Blob) : Str := hash_object (chars "blob") b.content

/-- `Blob.serialize()`: `"blob <size>\x00" + content`. -/
def Blob.serialize (b : Blob) : Bytes :=
  utf8Encode (chars "blob" ++ ' ' :: natToStr b.size ++ ['\x00']) ++ b.content

/-- `Blob.deserialize(data)`. -/
def Blob.deserialize (data : Bytes) : Except PyErr Blob :=
  match findNull data with
  | none => .error (.valueError (chars "无效的Blob对象格式"))
  | some nullPos =>
    match utf8Decode (data.take nullPos) with
    | none => .error .unicodeDecodeError
    | some header =>
      let parts := splitOnChar ' ' header
      if parts.length ≠ 2 ∨ parts.getD 0 [] ≠ chars "blob" then
        .error (.valueError (chars "无效的Blob对象头部"))
      else .ok ⟨data.drop (nullPos + 1)⟩

/-- `Tree.add_blob`: entry from the blob's hash. -/
def Tree.add_blob (t : Tree) (b : Blob) (name : Str) (mode : Str) : Tree :=
  t.add_entry ⟨mode, chars "blob", b.hash, name⟩

/-- `Tree.add_tree`: entry from the subtree's hash property. -/
def Tree.add_tree (t : Tree) (sub : Tree) (name : Str) (mode : Str) : Tree :=
  t.add_entry ⟨mode, chars "tree", (sub.hashProp).1, name⟩

/-- `Tree.remove_entry`: delete by name (resetting both caches) and
report whether a deletion happened. -/
def Tree.remove_entry (t : Tree) (name : Str) : Tree × Bool :=
  if t.entries.any (fun x => x.name == name) then
    (⟨t.entries.filter (fun x => x.name != name), none, none⟩, true)
  else (t, false)

/-- `Tree.get_entry`. -/
def Tree.get_entry (t : Tree) (name : Str) : Option TreeEntry :=
  t.entries.find? (fun x => x.name == name)

/-- `Tree.serialize()`: `"tree <len(content)>\x00" + content.encode()`
(the declared length counts characters, the payload is UTF-8 bytes). -/
def Tree.serialize (t : Tree) : Bytes × Tree :=
  let p := t.get_content
  (utf8Encode (chars "tree" ++ ' ' :: natToStr p.1.length ++ ['\x00']) ++ utf8Encode p.1, p.2)

/-- One line of `Tree.deserialize`'s entry parser; malformed lines are
skipped (`continue`). -/
def parseTreeLine (line : Str) : Option TreeEntry :=
  if pyStrip line ≠ [] then
    match splitOnChar '\t' line with
    | [info, nm] =>
      match splitOnChar ' ' info with
      | [mode, otype, ohash] => some ⟨mode, otype, ohash, nm⟩
      | _ => none
    | _ => none
  else none

/-- `Tree.deserialize(data)`. -/
def Tree.deserialize (data : Bytes) : Except PyErr Tree :=
  match findNull data with
  | none => .error (.valueError (chars "无效的Tree对象格式"))
  | some nullPos =>
    match utf8Decode (data.take nullPos) with
    | none => .error .unicodeDecodeError
    | some header =>
      let parts := splitOnChar ' ' header
      if parts.length ≠ 2 ∨ parts.getD 0 [] ≠ chars "tree" then
        .error (.valueError (chars "无效的Tree对象头部"))
      else
        match utf8Decode (data.drop (nullPos + 1)) with
        | none => .error .unicodeDecodeError
        | some content =>
          if content ≠ [] then
            .ok ((splitOnChar '\n' content).foldl
              (fun t line =>
                match parseTreeLine line with
                | some e => t.add_entry e
                | none => t) Tree.new)
          else .ok Tree.new

/-- A `Commit` object.  Python stores a `datetime`; only its
`strftime("%Y-%m-%d %H:%M:%S")` rendering is observable (in
`_get_content`), so the model carries that string.  The content cache is
elided: no claim mutates a commit after construction, and the setters
reset the cache anyway. -/
structure Commit where
  tree_hash : Str
  parent_hash : Option Str
  author : Str
  committer : Str
  message : Str
  timestamp : Str
deriving DecidableEq, Repr

/-- `Commit._get_content()`: fixed-order header lines, blank separator,
message.  `parent`/`author`/`committer` lines are emitted only when the
field is truthy (non-`None`, non-empty). -/
def Commit.content (c : Commit) : Str :=
  joinWith '\n'
    ([chars "tree" ++ ' ' :: c.tree_hash]
     ++ (match c.parent_hash with
         | some p => if p ≠ [] then [chars "parent" ++ ' ' :: p] else []
         | none => [])
     ++ (if c.author ≠ [] then [chars "author" ++ ' ' :: c.author ++ ' ' :: c.timestamp] else [])
     ++ (if c.committer ≠ [] then [chars "committer" ++ ' ' :: c.committer ++ ' ' :: c.timestamp] else [])
     ++ [[]]
     ++ [c.message])

/-- The `Commit.hash` property. -/
def Commit.hash (c : Commit) : Str := hashObjectStr (chars "commit") c.content

/-- `Commit.serialize()`. -/
def Commit.serialize (c : Commit) : Bytes :=
  utf8Encode (chars "commit" ++ ' ' :: natToStr c.content.length ++ ['\x00']) ++ utf8Encode c.content

/-- Mutable locals of `Commit.deserialize`'s header loop. -/
structure CommitParse where
  tree_hash : Str := []
  parent_hash : Option Str := none
  author : Str := []
  committer : Str := []
deriving DecidableEq, Repr

/-- One iteration of `Commit.deserialize`'s header loop. -/
def commitStep (st : CommitParse) (line0 : Str) : CommitParse :=
  let line := pyStrip line0
  if (chars "tree ").isPrefixOf line then { st with tree_hash := line.drop 5 }
  else if (chars "parent ").isPrefixOf line then { st with parent_hash := some (line.drop 7) }
  else if (chars "author ").isPrefixOf line then { st with author := line.drop 7 }
  else if (chars "committer ").isPrefixOf line then { st with committer := line.drop 10 }
  else st

/-- `Commit.deserialize(data)`; `now` models the `datetime.now()`
fallback used when no timestamp can be recovered from the committer. -/
def Commit.deserialize (data : Bytes) (now : Str) : Except PyErr Commit :=
  match findNull data with
  | none => .error (.valueError (chars "无效的Commit对象格式"))
  | some nullPos =>
    match utf8Decode (data.take nullPos) with
    | none => .error .unicodeDecodeError
    | some header =>
      let parts := splitOnChar ' ' header
      if parts.length ≠ 2 ∨ parts.getD 0 [] ≠ chars "commit" then
        .error (.valueError (chars "无效的Commit对象头部"))
      else
        match utf8Decode (data.drop (nullPos + 1)) with
        | none => .error .unicodeDecodeError
        | some content =>
          let lines := splitOnChar '\n' content
          let st := (lines.takeWhile (fun l => pyStrip l ≠ [])).foldl commitStep {}
          let msgLines := (lines.dropWhile (fun l => pyStrip l ≠ [])).dropWhile (fun l => pyStrip l = [])
          let message := pyStrip (joinWith '\n' msgLines)
          let ts :=
            if st.committer ≠ [] then
              let parts := pyWsSplit st.committer
              if parts.length ≥ 2 then
                let tstr := joinWith ' ' (parts.drop (parts.length - 2))
                if validTs tstr then tstr else now
              else now
            else now
          .ok ⟨st.tree_hash, st.parent_hash, st.author, st.committer, message, ts⟩

/-- A `Tag` object (timestamp modelled as for `Commit`). -/
structure Tag where
  tag_name : Str
  target_hash : Str
  target_type : Str
  tagger : Str
  message : Str
  timestamp : Str
deriving DecidableEq, Repr

/-- `Tag._get_content()`. -/
def Tag.content (t : Tag) : Str :=
  joinWith '\n'
    ([chars "object" ++ ' ' :: t.target_hash]
     ++ [chars "type" ++ ' ' :: t.target_type]
     ++ [chars "tag" ++ ' ' :: t.tag_name]
     ++ (if t.tagger ≠ [] then [chars "tagger" ++ ' ' :: t.tagger ++ ' ' :: t.timestamp] else [])
     ++ [[]]
     ++ [t.message])

/-- The `Tag.hash` property. -/
def Tag.hash (t : Tag) : Str := hashObjectStr (chars "tag") t.content

/-- `Tag.serialize()`. -/
def Tag.serialize (t : Tag) : Bytes :=
  utf8Encode (chars "tag" ++ ' ' :: natToStr t.content.length ++ ['\x00']) ++ utf8Encode t.content

/-- Mutable locals of `Tag.deserialize`'s header loop. -/
structure TagParse where
  target_hash : Str := []
  target_type : Str := []
  tag_name : Str := []
  tagger : Str := []
deriving DecidableEq, Repr

/-- One iteration of `Tag.deserialize`'s header loop. -/
def tagStep (st : TagParse) (line0 : Str) : TagParse :=
  let line := pyStrip line0
  if (chars "object ").isPrefixOf line then { st with target_hash := line.drop 7 }
  else if (chars "type ").isPrefixOf line then { st with target_type := line.drop 5 }
  else if (chars "tag ").isPrefixOf line then { st with tag_name := line.drop 4 }
  else if (chars "tagger ").isPrefixOf line then { st with tagger := line.drop 7 }
  else st

/-- `Tag.deserialize(data)`; `now` as in `Commit.deserialize`. -/
def Tag.deserialize (data : Bytes) (now : Str) : Except PyErr Tag :=
  match findNull data with
  | none => .error (.valueError (chars "无效的Tag对象格式"))
  | some nullPos =>
    match utf8Decode (data.take nullPos) with
    | none => .error .unicodeDecodeError
    | some header =>
      let parts := splitOnChar ' ' header
      if parts.length ≠ 2 ∨ parts.getD 0 [] ≠ chars "tag" then
        .error (.valueError (chars "无效的Tag对象头部"))
      else
        match utf8Decode (data.drop (nullPos + 1)) with
        | none => .error .unicodeDecodeError
        | some content =>
          let lines := splitOnChar '\n' content
          let st := (lines.takeWhile (fun l => pyStrip l ≠ [])).foldl tagStep {}
          let msgLines := (lines.dropWhile (fun l => pyStrip l ≠ [])).dropWhile (fun l => pyStrip l = [])
          let message := pyStrip (joinWith '\n' msgLines)
          let ts :=
            if st.tagger ≠ [] then
              let parts := pyWsSplit st.tagger
              if parts.length ≥ 2 then
                let tstr := joinWith ' ' (parts.drop (parts.length - 2))
                if validTs tstr then tstr else now
              else now
            else now
          .ok ⟨st.tag_name, st.target_hash, st.target_type, st.tagger, message, ts⟩


/-- The four stored object variants, as returned by
`ObjectDatabase.get_object`. -/
inductive PyObj where
  | blob (b : Blob)
  | tree (t : Tree)
  | commit (c : Commit)
  | tag (g : Tag)
deriving DecidableEq, Repr

/-- The `hash` property of a stored object. -/
def PyObj.hash : PyObj → Str
  | .blob b => b.hash
  | .tree t => (t.hashProp).1
  | .commit c => c.hash
  | .tag g => g.hash

/-- `obj.serialize()`. -/
def PyObj.serializeBytes : PyObj → Bytes
  | .blob b => b.serialize
  | .tree t => (t.serialize).1
  | .commit c => c.serialize
  | .tag g => g.serialize

/-- A sharded object path `objects/<hash[0:2]>/<hash[2:]>`. -/
abbrev ObjPath := Str × Str

/-- The on-disk object directory: a map from sharded path to the stored
(compressed) file bytes, modelled as an association list. -/
abbrev Store := List (ObjPath × Bytes)

/-- `ObjectDatabase._get_object_path`. -/
def getObjectPath (h : Str) : Except PyErr ObjPath :=
  if h.length < 2 then .error (.valueError (chars "无效的哈希值: " ++ h))
  else .ok (h.take 2, h.drop 2)

/-- File lookup at a sharded path. -/
def storeLookup (s : Store) (p : ObjPath) : Option Bytes :=
  (s.find? (fun kv => kv.1 == p)).map (fun kv => kv.2)

/-- `zlib.compress`.  Modelled as the identity coding: zlib is an
injective coding with `decompress (compress x) = x`, and no claim ever
observes the compressed image itself, only the round-trip. -/
def zlibCompress (b : Bytes) : Bytes := b

/-- `zlib.decompress`, the inverse of the identity coding above. -/
def zlibDecompress (b : Bytes) : Bytes := b

/-- `ObjectDatabase.store_object`: skip the write if a file already
exists at the object's sharded path, else write the compressed
serialization; returns the object's hash. -/
def store_object (s : Store) (obj : PyObj) : Except PyErr (Str × Store) := do
  let h := obj.hash
  let p ← getObjectPath h
  match storeLookup s p with
  | some _ => .ok (h, s)
  | none => .ok (h, (p, zlibCompress obj.serializeBytes) :: s)

/-- `ObjectDatabase.get_object`: locate the sharded path, decompress,
validate the header up to the first null byte, and dispatch on the kind;
`now` feeds the `datetime.now()` fallback of the deserializers. -/
def get_object (s : Store) (h : Str) (now : Str) : Except PyErr PyObj := do
  let p ← getObjectPath h
  match storeLookup s p with
  | none => .error (.fileNotFound (chars "对象不存在: " ++ h))
  | some compressed =>
    let data := zlibDecompress compressed
    match findNull data with
    | none => .error (.valueError (chars "无效的对象格式: " ++ h))
    | some nullPos =>
      match utf8Decode (data.take nullPos) with
      | none => .error .unicodeDecodeError
      | some header =>
        let parts := splitOnChar ' ' header
        if parts.length ≠ 2 then .error (.valueError (chars "无效的对象头部: " ++ h))
        else
          let objType := parts.getD 0 []
          if objType = chars "blob" then (Blob.deserialize data).map .blob
          else if objType = chars "tree" then (Tree.deserialize data).map .tree
          else if objType = chars "commit" then (Commit.deserialize data now).map .commit
          else if objType = chars "tag" then (Tag.deserialize data now).map .tag
          else .error (.valueError (chars "未知的对象类型: " ++ objType))

/-- `ObjectDatabase.object_exists`. -/
def object_exists (s : Store) (h : Str) : Except PyErr Bool :=
  (getObjectPath h).map (fun p => (storeLookup s p).isSome)

/-- A staging-index entry (`path`, `mode`, `blob_hash`, `size`, `mtime`,
`stage`).  The float `st_mtime` is only ever compared for equality, so it
is modelled as a natural number. -/
structure IndexEntry where
  path : Str
  mode : Str
  blob_hash : Str
  size : Nat
  mtime : Nat
  stage : Nat := 0
deriving DecidableEq, Repr

/-- A working-tree file as seen by the index: raw content bytes (whose
length is `st_size`) and the modification time. -/
structure FileData where
  content : Bytes
  mtime : Nat
deriving DecidableEq, Repr

/-- The working-tree view used by the index: path to file data. -/
abbrev FileSys := Str → Option FileData

/-- `Index.get_entry` over the path-keyed entry dict. -/
def getEntry (idx : List IndexEntry) (path : Str) : Option IndexEntry :=
  idx.find? (fun e => e.path == path)

/-- `HashCalculator.hash_file_content`: SHA-1 of the raw file bytes
(unframed, unlike `hash_object`). -/
def hash_file_content (content : Bytes) : Str := sha1Hex content

/-- `Index.is_file_modified(path)`: untracked paths are unmodified; a
missing file is modified; otherwise compare mtime, then size, then the
content hash against the stored entry. -/
def is_file_modified (idx : List IndexEntry) (fs : FileSys) (path : Str) : Bool :=
  match getEntry idx path with
  | none => false
  | some entry =>
    match fs path with
    | none => true
    | some fd =>
      if fd.mtime ≠ entry.mtime then true
      else if fd.content.length ≠ entry.size then true
      else if hash_file_content fd.content ≠ entry.blob_hash then true
      else false

/-- `MerkleTree._get_subtree`: the source is a stub — it checks that the
entry exists and is tree-kind but then returns `None` ("暂时返回None，
后续可以扩展"), in every case. -/
def get_subtree (t : Tree) (name : Str) : Option Tree :=
  match t.get_entry name with
  | some e => if e.obj_type = chars "tree" then none else none
  | none => none

/-- The `compare_trees` result dict. -/
structure DiffResult where
  added : List Str
  removed : List Str
  modified : List Str
  renamed : List Str
deriving DecidableEq, Repr

/-- `MerkleTree.compare_trees`.  The fuel (any positive value suffices,
since the stubbed `_get_subtree` makes the recursive branch dead) only
serves Lean's termination checker.  Python iterates the name sets in
unspecified set order; the model fixes entry-list order, and every claim
about the result is order-independent. -/
def compare_trees : Nat → Tree → Tree → DiffResult
  | 0, _, _ => ⟨[], [], [], []⟩
  | fuel + 1, t1, t2 =>
    let entries1 := t1.entries
    let entries2 := t2.entries
    let names1 := entries1.map (fun e => e.name)
    let names2 := entries2.map (fun e => e.name)
    let added := (entries2.filter (fun e => !names1.contains e.name)).map
      (fun e => if e.obj_type = chars "blob" then e.name else e.name ++ ['/'])
    let removed := (entries1.filter (fun e => !names2.contains e.name)).map
      (fun e => if e.obj_type = chars "blob" then e.name else e.name ++ ['/'])
    (entries1.filter (fun e => names2.contains e.name)).foldl
      (fun acc e1 =>
        match entries2.find? (fun e => e.name == e1.name) with
        | none => acc
        | some e2 =>
          if e1.hash ≠ e2.hash then
            if e1.obj_type = chars "blob" then
              { acc with modified := acc.modified ++ [e1.name] }
            else
              match get_subtree t1 e1.name, get_subtree t2 e1.name with
              | some s1, some s2 =>
                let sub := compare_trees fuel s1 s2
                { acc with
                  added := acc.added ++ sub.added.map (fun i => e1.name ++ '/' :: i),
                  removed := acc.removed ++ sub.removed.map (fun i => e1.name ++ '/' :: i),
                  modified := acc.modified ++ sub.modified.map (fun i => e1.name ++ '/' :: i),
                  renamed := acc.renamed ++ sub.renamed.map (fun i => e1.name ++ '/' :: i) }
              | _, _ => acc
          else acc)
      ⟨added, removed, [], []⟩

/-- A filesystem subtree for the builder: regular files with byte
contents, or subdirectories with named children (in `iterdir` order). -/
inductive FsEntry where
  | file (content : Bytes)
  | dir (children : List (Str × FsEntry))

/-- `pattern in name`: Python substring containment. -/
def containsSub (pat s : Str) : Bool :=
  (List.range (s.length + 1)).any (fun i => pat.isPrefixOf (s.drop i))

/-- `MerkleTree._build_tree_recursive`: files become blob entries (mode
"100644"), subdirectories recursively built tree entries (mode
"040000"); names containing an ignore pattern are skipped.  Nothing is
stored to the object database during the walk.  The fuel (instantiated
with any bound on the directory depth) only serves termination. -/
def buildTree : Nat → List Str → List (Str × FsEntry) → Tree
  | 0, _, _ => Tree.new
  | fuel + 1, ignorePats, items =>
    items.foldl
      (fun t item =>
        if ignorePats.any (fun pat => containsSub pat item.1) then t
        else
          match item.2 with
          | .file c => t.add_blob ⟨c⟩ item.1 (chars "100644")
          | .dir ch => t.add_tree (buildTree fuel ignorePats ch) item.1 (chars "040000"))
      Tree.new

/-- The default ignore patterns of `build_tree_from_directory`. -/
def defaultIgnores : List Str :=
  [chars ".git", chars ".pygit", chars "__pycache__", chars ".DS_Store"]

/-- `MerkleTree.build_tree_from_directory` over the modelled filesystem. -/
def build_tree_from_directory (fuel : Nat) (fs : List (Str × FsEntry)) : Tree :=
  buildTree fuel defaultIgnores fs

/-- Repository state: the object directory, the literal contents of the
HEAD file and of `refs/heads/main`, and the resolved `self.head`. -/
structure RepoState where
  store : Store
  headFile : Option Str
  branchRef : Option Str
  head : Option Str
deriving Repr

/-- A freshly initialized repository (`init`): empty object store, HEAD
pointing at the unborn main branch. -/
def RepoState.init : RepoState :=
  ⟨[], some (chars "ref: refs/heads/main"), none, none⟩

/-- `Repository.commit(message, allow_empty)`.  The working tree is the
modelled filesystem `fs` (built with `build_tree_from_directory`, depth
bound `fuel`), `userName`/`userEmail` are the configured identity, `ts`
the `datetime.now()` rendering used for the new commit, and `now` feeds
deserializer fallbacks.  Mirrors the source order: message check, tree
build, empty-commit check, store tree, create and store commit, then
advance the branch ref and HEAD. -/
def Repository.commit (s : RepoState) (fuel : Nat) (fs : List (Str × FsEntry))
    (userName userEmail : Str) (message : Str) (allow_empty : Bool)
    (ts now : Str) : Except PyErr (Str × RepoState) := do
  if pyStrip message = [] then .error (.valueError (chars "提交消息不能为空"))
  else
    let tree := build_tree_from_directory fuel fs
    let emptyCheck : Except PyErr Unit :=
      if !allow_empty then
        match s.head with
        | some h =>
          match get_object s.store h now with
          | .error e => .error e
          | .ok (.commit parent) =>
            if parent.tree_hash = (tree.hashProp).1 then
              .error (.valueError (chars "没有变更需要提交"))
            else .ok ()
          | .ok _ => .error .attributeError
        | none => .ok ()
      else .ok ()
    match emptyCheck with
    | .error e => .error e
    | .ok () =>
      let (_, store1) ← store_object s.store (.tree tree)
      let author := userName ++ ' ' :: '<' :: userEmail ++ ['>']
      let commit : Commit := ⟨(tree.hashProp).1, s.head, author, author, message, ts⟩
      let (chash, store2) ← store_object store1 (.commit commit)
      .ok (chash, ⟨store2, some (chars "ref: refs/heads/main"), some chash, some chash⟩)


/-- Cache consistency invariant of a `Tree`: each memo field, when
filled, holds exactly the value recomputed from the current entries. -/
def cacheOk (t : Tree) : Prop :=
  (t.cachedContent = none ∨ t.cachedContent = some (treeContent t.entries)) ∧
  (t.cachedHash = none ∨ t.cachedHash = some (hashObjectStr (chars "tree") (treeContent t.entries)))

/-- Well-formedness of a tree entry for serialization round-trips: the
mode, kind and hash carry no whitespace, the hash is non-empty, and the
name contains neither tab nor newline. -/
def wfEntry (e : TreeEntry) : Prop :=
  (∀ c ∈ e.mode, isPySpace c = false) ∧
  (∀ c ∈ e.obj_type, isPySpace c = false) ∧
  (∀ c ∈ e.hash, isPySpace c = false) ∧ e.hash ≠ [] ∧
  (∀ c ∈ e.name, c ≠ '\t' ∧ c ≠ '\n')

/-- Well-formedness of a tree: well-formed entries, distinct names (the
dict invariant), and a consistent cache. -/
def wfTree (t : Tree) : Prop :=
  (∀ e ∈ t.entries, wfEntry e) ∧ (t.entries.map (fun e => e.name)).Nodup ∧ cacheOk t

/-- The entry mutations exposed by `Tree`. -/
inductive TreeOp where
  | addBlob (b : Blob) (name mode : Str)
  | addTreeEntry (sub : Tree) (name mode : Str)
  | removeEntry (name : Str)

/-- Apply one mutation. -/
def applyOp (t : Tree) : TreeOp → Tree
  | .addBlob b n m => t.add_blob b n m
  | .addTreeEntry s n m => t.add_tree s n m
  | .removeEntry n => (t.remove_entry n).1

/-- Apply a sequence of mutations. -/
def applyOps (t : Tree) (ops : List TreeOp) : Tree := ops.foldl applyOp t



end PyGit


namespace PyGit


theorem utf8Encode_append (a b : Str) : utf8Encode (a ++ b) = utf8Encode a ++ utf8Encode b := by
  simp [utf8Encode]

theorem utf8Encode_cons (c : Char) (s : Str) :
    utf8Encode (c :: s) = utf8EncodeChar c.toNat ++ utf8Encode s := by
  simp [utf8Encode]

theorem zero_not_mem_encodeChar (n : Nat) (h : n ≠ 0) : ¬ 0 ∈ utf8EncodeChar n := by
  unfold utf8EncodeChar
  split_ifs <;> (try simp) <;> omega

theorem toNat_eq_zero_imp (c : Char) (h : c.toNat = 0) : c = '\x00' := by
  have h2 := Char.ofNat_toNat c
  rw [h] at h2
  exact h2.symm.trans (by decide)

theorem zero_not_mem_utf8Encode (s : Str) (h : ∀ c ∈ s, c ≠ '\x00') : ¬ 0 ∈ utf8Encode s := by
  induction s with
  | nil => simp [utf8Encode]
  | cons c rest ih =>
    rw [utf8Encode_cons]
    intro hmem
    rcases List.mem_append.mp hmem with h1 | h2
    · exact zero_not_mem_encodeChar c.toNat
        (fun h0 => h c (by simp) (toNat_eq_zero_imp c h0)) h1
    · exact ih (fun x hx => h x (by simp [hx])) h2

theorem findNull_append (pre post : Bytes) (h : ∀ b ∈ pre, b ≠ 0) :
    findNull (pre ++ 0 :: post) = some pre.length := by
  induction pre with
  | nil => simp [findNull]
  | cons b rest ih =>
    have hb : b ≠ 0 := h b (by simp)
    simp only [List.cons_append, findNull, if_neg hb, List.append_eq]
    rw [ih (fun x hx => h x (by simp [hx]))]
    simp

theorem drop_len_succ_append (pre : Bytes) (x : Nat) (post : Bytes) :
    (pre ++ x :: post).drop (pre.length + 1) = post := by
  induction pre with
  | nil => simp
  | cons b rest ih => simp [ih]

theorem splitOnChar_ne_nil (sep : Char) (s : Str) : splitOnChar sep s ≠ [] := by
  cases s with
  | nil => simp [splitOnChar]
  | cons c rest =>
    simp only [splitOnChar]
    rcases hsp : splitOnChar sep rest with _ | ⟨p, ps⟩
    · simp
    · by_cases hc : (c == sep) = true
      · simp [hc]
      · simp [hc]

theorem splitOnChar_no_sep (sep : Char) (s : Str) (h : ∀ c ∈ s, c ≠ sep) :
    splitOnChar sep s = [s] := by
  induction s with
  | nil => rfl
  | cons c rest ih =>
    have hrec := ih (fun x hx => h x (by simp [hx]))
    have hc : (c == sep) = false := by
      simp only [beq_eq_false_iff_ne]
      exact h c (by simp)
    simp [splitOnChar, hrec, hc]

theorem splitOnChar_append_sep (sep : Char) (a b : Str) (h : ∀ c ∈ a, c ≠ sep) :
    splitOnChar sep (a ++ sep :: b) = a :: splitOnChar sep b := by
  induction a with
  | nil =>
    simp only [List.nil_append, splitOnChar]
    cases hb : splitOnChar sep b with
    | nil => exact absurd hb (splitOnChar_ne_nil sep b)
    | cons p ps => simp [hb]
  | cons c rest ih =>
    have hrec := ih (fun x hx => h x (by simp [hx]))
    have hc : (c == sep) = false := by
      simp only [beq_eq_false_iff_ne]
      exact h c (by simp)
    simp only [List.cons_append, splitOnChar, List.append_eq]
    rw [hrec]
    simp [hc]

theorem joinWith_split (sep : Char) (s : Str) : joinWith sep (splitOnChar sep s) = s := by
  induction s with
  | nil => rfl
  | cons c rest ih =>
    simp only [splitOnChar]
    rcases h : splitOnChar sep rest with _ | ⟨p, ps⟩
    · exact absurd h (splitOnChar_ne_nil sep rest)
    · rw [h] at ih
      by_cases hc : (c == sep) = true
      · have hcs : c = sep := by simpa using hc
        subst hcs
        simp only [if_pos hc, joinWith]
        simp only [List.nil_append]
        rw [ih]
      · simp only [if_neg hc]
        cases ps with
        | nil =>
          simp only [joinWith] at ih ⊢
          rw [ih]
        | cons q qs =>
          simp only [joinWith] at ih ⊢
          rw [List.cons_append, ih]

theorem joinWith_cons_cons (sep : Char) (x y : Str) (t : List Str) :
    joinWith sep (x :: y :: t) = x ++ sep :: joinWith sep (y :: t) := rfl

theorem splitOnChar_joinWith_append (sep : Char) (ls : List Str) (m : Str)
    (h : ∀ l ∈ ls, ∀ c ∈ l, c ≠ sep) :
    splitOnChar sep (joinWith sep (ls ++ [m])) = ls ++ splitOnChar sep m := by
  induction ls with
  | nil => simp [joinWith]
  | cons x rest ih =>
    have hx : ∀ c ∈ x, c ≠ sep := h x (by simp)
    cases hre : rest ++ [m] with
    | nil => exact absurd hre (by simp)
    | cons y t =>
      rw [List.cons_append, hre, joinWith_cons_cons, ← hre,
        splitOnChar_append_sep sep x _ hx,
        ih (fun l hl => h l (by simp [hl]))]
      simp

theorem splitOnChar_joinWith_all (sep : Char) (ls : List Str)
    (h : ∀ l ∈ ls, ∀ c ∈ l, c ≠ sep) (hne : ls ≠ []) :
    splitOnChar sep (joinWith sep ls) = ls := by
  rcases List.eq_nil_or_concat ls with rfl | ⟨init, last, rfl⟩
  · exact absurd rfl hne
  · simp only [List.concat_eq_append] at h hne ⊢
    rw [splitOnChar_joinWith_append sep init last (fun l hl => h l (by simp [hl])),
      splitOnChar_no_sep sep last (h last (by simp))]

theorem mem_dropWhile_of_not (p : Char → Bool) (l : Str) (c : Char)
    (hc : c ∈ l) (hp : p c = false) : c ∈ l.dropWhile p := by
  induction l with
  | nil => simp at hc
  | cons a rest ih =>
    by_cases ha : p a = true
    · rw [List.dropWhile_cons_of_pos ha]
      rcases List.mem_cons.mp hc with rfl | h2
      · rw [ha] at hp; simp at hp
      · exact ih h2
    · rw [List.dropWhile_cons_of_neg (by simpa using ha)]
      exact hc

theorem pyStrip_ne_nil (l : Str) (c : Char) (hc : c ∈ l) (hns : isPySpace c = false) :
    pyStrip l ≠ [] := by
  unfold pyStrip
  intro h
  have h1 : c ∈ l.dropWhile isPySpace := mem_dropWhile_of_not _ l c hc hns
  have h2 : c ∈ (l.dropWhile isPySpace).reverse := by simpa using h1
  have h3 : c ∈ (l.dropWhile isPySpace).reverse.dropWhile isPySpace :=
    mem_dropWhile_of_not _ _ c h2 hns
  rw [List.reverse_eq_nil_iff] at h
  rw [h] at h3
  simp at h3

theorem pyStrip_eq_self (l : Str)
    (h1 : ∀ c, l.head? = some c → isPySpace c = false)
    (h2 : ∀ c, l.getLast? = some c → isPySpace c = false) : pyStrip l = l := by
  unfold pyStrip
  have e1 : l.dropWhile isPySpace = l := by
    cases l with
    | nil => rfl
    | cons a rest =>
      rw [List.dropWhile_cons_of_neg]
      simp [h1 a rfl]
  rw [e1]
  have e2 : l.reverse.dropWhile isPySpace = l.reverse := by
    cases hr : l.reverse with
    | nil => rfl
    | cons a rest =>
      rw [List.dropWhile_cons_of_neg]
      have : l.getLast? = some a := by
        rw [← List.head?_reverse, hr]; rfl
      simp [h2 a this]
  rw [e2, List.reverse_reverse]

theorem mem_of_head?_eq (l : Str) (c : Char) (h : l.head? = some c) : c ∈ l := by
  cases l with
  | nil => simp at h
  | cons a rest =>
    have : a = c := by simpa using h
    simp [this.symm]

theorem mem_of_getLast?_eq (l : Str) (c : Char) (h : l.getLast? = some c) : c ∈ l := by
  induction l with
  | nil => simp at h
  | cons a rest ih =>
    cases rest with
    | nil =>
      have : a = c := by simpa using h
      simp [this.symm]
    | cons b t =>
      rw [List.getLast?_cons_cons] at h
      simp [ih h]

theorem pyStrip_eq_self_all (l : Str) (h : ∀ c ∈ l, isPySpace c = false) : pyStrip l = l :=
  pyStrip_eq_self l (fun c hc => h c (mem_of_head?_eq l c hc))
    (fun c hc => h c (mem_of_getLast?_eq l c hc))

theorem head_not_space_of_strip_eq (l : Str) (h : pyStrip l = l) (c : Char)
    (hc : l.head? = some c) : isPySpace c = false := by
  by_contra hsp
  have hsp2 : isPySpace c = true := by
    cases hq : isPySpace c
    · exact absurd hq hsp
    · rfl
  cases l with
  | nil => simp at hc
  | cons a rest =>
    have ha : a = c := by simpa using hc
    subst ha
    have hlen : (pyStrip (a :: rest)).length ≤ rest.length := by
      unfold pyStrip
      rw [List.dropWhile_cons_of_pos hsp2]
      calc ((rest.dropWhile isPySpace).reverse.dropWhile isPySpace).reverse.length
          ≤ (rest.dropWhile isPySpace).reverse.length := by
            rw [List.length_reverse]
            exact (List.dropWhile_sublist _).length_le
        _ ≤ rest.length := by
            rw [List.length_reverse]
            exact (List.dropWhile_sublist _).length_le
    rw [h] at hlen
    simp only [List.length_cons] at hlen
    omega

theorem strLe_total (a b : Str) : strLe a b = true ∨ strLe b a = true := by
  induction a generalizing b with
  | nil => left; rfl
  | cons c as ih =>
    cases b with
    | nil => right; rfl
    | cons d bs =>
      rcases lt_trichotomy c d with h | h | h
      · left; unfold strLe; rw [if_pos h]
      · subst h
        rcases ih bs with h2 | h2
        · left; unfold strLe; rw [if_neg (lt_irrefl c), if_neg (lt_irrefl c)]; exact h2
        · right; unfold strLe; rw [if_neg (lt_irrefl c), if_neg (lt_irrefl c)]; exact h2
      · right; unfold strLe; rw [if_pos h]

theorem strLe_antisymm (a b : Str) (h1 : strLe a b = true) (h2 : strLe b a = true) : a = b := by
  induction a generalizing b with
  | nil =>
    cases b with
    | nil => rfl
    | cons d bs => simp [strLe] at h2
  | cons c as ih =>
    cases b with
    | nil => simp [strLe] at h1
    | cons d bs =>
      rcases lt_trichotomy c d with h | h | h
      · unfold strLe at h2
        rw [if_neg (asymm h), if_pos h] at h2
        simp at h2
      · subst h
        unfold strLe at h1 h2
        rw [if_neg (lt_irrefl c), if_neg (lt_irrefl c)] at h1 h2
        rw [ih bs h1 h2]
      · unfold strLe at h1
        rw [if_neg (asymm h), if_pos h] at h1
        simp at h1

theorem strLe_trans (a b c : Str) (h1 : strLe a b = true) (h2 : strLe b c = true) :
    strLe a c = true := by
  induction a generalizing b c with
  | nil => rfl
  | cons x as ih =>
    cases b with
    | nil => simp [strLe] at h1
    | cons y bs =>
      cases c with
      | nil => simp [strLe] at h2
      | cons z cs =>
        unfold strLe at h1 h2 ⊢
        rcases lt_trichotomy x y with hxy | hxy | hxy
        · rcases lt_trichotomy y z with hyz | hyz | hyz
          · rw [if_pos (lt_trans hxy hyz)]
          · subst hyz; rw [if_pos hxy]
          · rw [if_neg (asymm hyz), if_pos hyz] at h2; simp at h2
        · subst hxy
          rcases lt_trichotomy x z with hxz | hxz | hxz
          · rw [if_pos hxz]
          · subst hxz
            rw [if_neg (lt_irrefl x), if_neg (lt_irrefl x)] at h1 h2 ⊢
            exact ih bs cs h1 h2
          · rw [if_neg (asymm hxz), if_pos hxz] at h2; simp at h2
        · rw [if_neg (asymm hxy), if_pos hxy] at h1; simp at h1

theorem insertEntry_perm (e : TreeEntry) (l : List TreeEntry) :
    List.Perm (insertEntry e l) (e :: l) := by
  induction l with
  | nil => rfl
  | cons x xs ih =>
    unfold insertEntry
    split
    · rfl
    · exact (List.Perm.cons x ih).trans (List.Perm.swap e x xs)

theorem sortEntries_perm (l : List TreeEntry) : List.Perm (sortEntries l) l := by
  induction l with
  | nil => rfl
  | cons x xs ih =>
    exact (insertEntry_perm x (sortEntries xs)).trans (List.Perm.cons x ih)

theorem insertEntry_pairwise (e : TreeEntry) (l : List TreeEntry)
    (h : List.Pairwise (fun x y => strLe x.name y.name = true) l) :
    List.Pairwise (fun x y => strLe x.name y.name = true) (insertEntry e l) := by
  induction l with
  | nil => simp [insertEntry]
  | cons x xs ih =>
    unfold insertEntry
    split
    · rename_i hle
      exact List.Pairwise.cons
        (fun y hy => by
          rcases List.mem_cons.mp hy with rfl | hy2
          · exact hle
          · exact strLe_trans _ _ _ hle (List.rel_of_pairwise_cons h hy2))
        h
    · rename_i hnle
      have hxe : strLe x.name e.name = true := by
        rcases strLe_total e.name x.name with h2 | h2
        · exact absurd h2 hnle
        · exact h2
      exact List.Pairwise.cons
        (fun y hy => by
          have hy2 := (insertEntry_perm e xs).mem_iff.mp hy
          rcases List.mem_cons.mp hy2 with rfl | hy3
          · exact hxe
          · exact List.rel_of_pairwise_cons h hy3)
        (ih (List.Pairwise.sublist (List.sublist_cons_self x xs) h))

theorem sortEntries_pairwise (l : List TreeEntry) :
    List.Pairwise (fun x y => strLe x.name y.name = true) (sortEntries l) := by
  induction l with
  | nil => simp [sortEntries]
  | cons x xs ih => exact insertEntry_pairwise x (sortEntries xs) ih

theorem sortEntries_eq_self (l : List TreeEntry)
    (h : List.Pairwise (fun x y => strLe x.name y.name = true) l) : sortEntries l = l := by
  induction l with
  | nil => rfl
  | cons x xs ih =>
    have step : sortEntries (x :: xs) = insertEntry x (sortEntries xs) := rfl
    rw [step, ih (List.Pairwise.sublist (List.sublist_cons_self x xs) h)]
    cases xs with
    | nil => rfl
    | cons y ys =>
      unfold insertEntry
      rw [if_pos (List.rel_of_pairwise_cons h (by simp))]

theorem sortEntries_idem (l : List TreeEntry) : sortEntries (sortEntries l) = sortEntries l :=
  sortEntries_eq_self _ (sortEntries_pairwise l)

theorem dictInsert_not_mem (es : List TreeEntry) (e : TreeEntry)
    (h : ∀ x ∈ es, x.name ≠ e.name) : dictInsert es e = es ++ [e] := by
  unfold dictInsert
  rw [if_neg]
  simp only [List.any_eq_true, beq_iff_eq]
  push_neg
  exact h

theorem foldl_add_entry (es acc : List TreeEntry)
    (hdisj : ∀ x ∈ acc, ∀ e ∈ es, x.name ≠ e.name)
    (hnd : (es.map (fun e => e.name)).Nodup) :
    es.foldl (fun t e => t.add_entry e) (⟨acc, none, none⟩ : Tree)
      = (⟨acc ++ es, none, none⟩ : Tree) := by
  induction es generalizing acc with
  | nil => simp
  | cons e rest ih =>
    have h1 : (⟨acc, none, none⟩ : Tree).add_entry e = ⟨acc ++ [e], none, none⟩ := by
      unfold Tree.add_entry
      rw [dictInsert_not_mem acc e (fun x hx => hdisj x hx e (by simp))]
    rw [List.foldl_cons, h1, ih (acc ++ [e])]
    · simp
    · intro x hx e2 he2
      rcases List.mem_append.mp hx with hx2 | hx2
      · exact hdisj x hx2 e2 (by simp [he2])
      · have : x = e := by simpa using hx2
        subst this
        simp only [List.map_cons, List.nodup_cons] at hnd
        intro heq
        exact hnd.1 (heq ▸ List.mem_map_of_mem (fun e => e.name) he2)
    · simp only [List.map_cons, List.nodup_cons] at hnd
      exact hnd.2

theorem digit_mem (n : Nat) (h : n < 10) : hexDigit n ∈ chars "0123456789" := by
  interval_cases n <;> decide

theorem hexDigit_mem16 (n : Nat) (h : n < 16) : hexDigit n ∈ chars "0123456789abcdef" := by
  interval_cases n <;> decide

theorem natToStrAux_digits (f : Nat) : ∀ (n : Nat) (acc : Str),
    (∀ c ∈ acc, c ∈ chars "0123456789") → ∀ c ∈ natToStrAux f n acc, c ∈ chars "0123456789" := by
  induction f with
  | zero => intro n acc hacc c hc; exact hacc c hc
  | succ f ih =>
    intro n acc hacc c hc
    unfold natToStrAux at hc
    by_cases hn : n < 10
    · rw [if_pos hn] at hc
      rcases List.mem_cons.mp hc with rfl | hc2
      · exact digit_mem n hn
      · exact hacc c hc2
    · rw [if_neg hn] at hc
      refine ih (n / 10) _ ?_ c hc
      intro x hx
      rcases List.mem_cons.mp hx with rfl | hx2
      · exact digit_mem _ (Nat.mod_lt n (by omega))
      · exact hacc x hx2

theorem natToStr_digits (n : Nat) : ∀ c ∈ natToStr n, c ∈ chars "0123456789" :=
  natToStrAux_digits (n + 1) n [] (by simp)

theorem digit_props : ∀ c ∈ chars "0123456789", isPySpace c = false ∧ c ≠ '\x00' ∧ c ≠ ' ' := by
  decide

theorem hex_props : ∀ c ∈ chars "0123456789abcdef",
    isPySpace c = false ∧ c ≠ '\x00' ∧ c ≠ ' ' := by
  decide

theorem sha1Compress_length (h c : List Nat) : (sha1Compress h c).length = 5 := by
  simp [sha1Compress]

theorem foldl_sha1Compress_length (chunks : List (List Nat)) (h : List Nat)
    (hl : h.length = 5) : (chunks.foldl sha1Compress h).length = 5 := by
  induction chunks generalizing h with
  | nil => exact hl
  | cons c rest ih => exact ih (sha1Compress h c) (sha1Compress_length h c)

theorem sum_map_const_eight (hs : List Nat) : (hs.map (fun _ => (8 : Nat))).sum = 8 * hs.length := by
  induction hs with
  | nil => simp
  | cons x xs ih => simp [ih]; ring

theorem sha1Hex_length (b : Bytes) : (sha1Hex b).length = 40 := by
  unfold sha1Hex
  rw [List.length_flatten]
  simp only [List.map_map]
  have : ∀ hs : List Nat,
      (hs.map (List.length ∘ fun wv =>
        (List.range 8).map (fun i => hexDigit ((wv >>> (4 * (7 - i))) % 16)))).sum
      = 8 * hs.length := by
    intro hs
    have he : (List.length ∘ fun wv : Nat =>
        (List.range 8).map (fun i => hexDigit ((wv >>> (4 * (7 - i))) % 16)))
        = fun _ => (8 : Nat) := by
      funext wv
      simp
    rw [he, sum_map_const_eight]
  rw [this]
  rw [foldl_sha1Compress_length _ _ (by simp)]

theorem sha1Hex_hexmem (b : Bytes) : ∀ c ∈ sha1Hex b, c ∈ chars "0123456789abcdef" := by
  intro c hc
  unfold sha1Hex at hc
  simp only [List.mem_flatten, List.mem_map, List.mem_range] at hc
  obtain ⟨l, ⟨wv, _, rfl⟩, hcl⟩ := hc
  simp only [List.mem_map, List.mem_range] at hcl
  obtain ⟨i, _, rfl⟩ := hcl
  exact hexDigit_mem16 _ (Nat.mod_lt _ (by omega))

theorem sha1Hex_no_space (b : Bytes) : ∀ c ∈ sha1Hex b, isPySpace c = false :=
  fun c hc => (hex_props c (sha1Hex_hexmem b c hc)).1

theorem sha1Hex_ne_nil (b : Bytes) : sha1Hex b ≠ [] := by
  intro h
  have := sha1Hex_length b
  rw [h] at this
  simp at this

theorem char_range (c : Char) : c.toNat < 55296 ∨ (57343 < c.toNat ∧ c.toNat < 1114112) := by
  have h := c.valid
  simp only [UInt32.isValidChar, Nat.isValidChar] at h
  rcases h with h | h
  · left; exact h
  · right; exact ⟨h.1, h.2⟩

theorem utf8EncodeChar_ne_nil (n : Nat) : utf8EncodeChar n ≠ [] := by
  unfold utf8EncodeChar
  split_ifs <;> simp

theorem length_le_utf8Encode (s : Str) : s.length ≤ (utf8Encode s).length := by
  induction s with
  | nil => simp [utf8Encode]
  | cons c rest ih =>
    rw [utf8Encode_cons, List.length_append, List.length_cons]
    have h1 : 1 ≤ (utf8EncodeChar c.toNat).length := by
      rcases hq : utf8EncodeChar c.toNat with _ | ⟨x, xs⟩
      · exact absurd hq (utf8EncodeChar_ne_nil c.toNat)
      · simp
    omega

theorem decodeAux_one (f n : Nat) (rest : Bytes) (h : n < 128) :
    utf8DecodeAux (f + 1) (n :: rest) =
      (utf8DecodeAux f rest).map (fun cs => Char.ofNat n :: cs) := by
  simp only [utf8DecodeAux, if_pos h]

theorem decodeAux_two (f n : Nat) (rest : Bytes) (h1 : 128 ≤ n) (h2 : n < 2048) :
    utf8DecodeAux (f + 1) (utf8EncodeChar n ++ rest) =
      (utf8DecodeAux f rest).map (fun cs => Char.ofNat n :: cs) := by
  have e : utf8EncodeChar n = [192 + n / 64, 128 + n % 64] := by
    unfold utf8EncodeChar
    rw [if_neg (by omega), if_pos h2]
  rw [e]
  show utf8DecodeAux (f + 1) ((192 + n / 64) :: (128 + n % 64) :: rest) = _
  simp only [utf8DecodeAux]
  rw [if_neg (by omega), if_neg (by omega), if_pos (by omega),
    if_pos (by constructor <;> omega)]
  have hv : (192 + n / 64 - 192) * 64 + (128 + n % 64 - 128) = n := by omega
  rw [hv]

theorem decodeAux_three (f n : Nat) (rest : Bytes) (h1 : 2048 ≤ n) (h2 : n < 65536)
    (h3 : ¬(55296 ≤ n ∧ n < 57344)) :
    utf8DecodeAux (f + 1) (utf8EncodeChar n ++ rest) =
      (utf8DecodeAux f rest).map (fun cs => Char.ofNat n :: cs) := by
  have e : utf8EncodeChar n = [224 + n / 4096, 128 + n / 64 % 64, 128 + n % 64] := by
    unfold utf8EncodeChar
    rw [if_neg (by omega), if_neg (by omega), if_pos h2]
  rw [e]
  show utf8DecodeAux (f + 1)
    ((224 + n / 4096) :: (128 + n / 64 % 64) :: (128 + n % 64) :: rest) = _
  simp only [utf8DecodeAux]
  rw [if_neg (by omega), if_neg (by omega), if_neg (by omega), if_pos (by omega),
    if_pos (by refine ⟨by omega, by omega, by omega, by omega⟩)]
  have hv : (224 + n / 4096 - 224) * 4096 + (128 + n / 64 % 64 - 128) * 64 +
      (128 + n % 64 - 128) = n := by omega
  rw [hv, if_neg (by omega)]

theorem decodeAux_four (f n : Nat) (rest : Bytes) (h1 : 65536 ≤ n) (h2 : n < 1114112) :
    utf8DecodeAux (f + 1) (utf8EncodeChar n ++ rest) =
      (utf8DecodeAux f rest).map (fun cs => Char.ofNat n :: cs) := by
  have e : utf8EncodeChar n =
      [240 + n / 262144, 128 + n / 4096 % 64, 128 + n / 64 % 64, 128 + n % 64] := by
    unfold utf8EncodeChar
    rw [if_neg (by omega), if_neg (by omega), if_neg (by omega)]
  rw [e]
  show utf8DecodeAux (f + 1)
    ((240 + n / 262144) :: (128 + n / 4096 % 64) :: (128 + n / 64 % 64) ::
      (128 + n % 64) :: rest) = _
  simp only [utf8DecodeAux]
  rw [if_neg (by omega), if_neg (by omega), if_neg (by omega), if_neg (by omega),
    if_pos (by omega),
    if_pos (by refine ⟨by omega, by omega, by omega, by omega, by omega, by omega⟩)]
  have hv : (240 + n / 262144 - 240) * 262144 + (128 + n / 4096 % 64 - 128) * 4096 +
      (128 + n / 64 % 64 - 128) * 64 + (128 + n % 64 - 128) = n := by omega
  rw [hv, if_neg (by omega)]

theorem decode_encode_aux (s : Str) : ∀ f, s.length ≤ f →
    utf8DecodeAux f (utf8Encode s) = some s := by
  induction s with
  | nil =>
    intro f _
    cases f <;> simp [utf8Encode, utf8DecodeAux]
  | cons c rest ih =>
    intro f hf
    cases f with
    | zero => simp at hf
    | succ f2 =>
      have hf2 : rest.length ≤ f2 := by simp at hf; omega
      have hrec := ih f2 hf2
      rw [utf8Encode_cons]
      rcases char_range c with hr | hr
      · by_cases h1 : c.toNat < 128
        · have e : utf8EncodeChar c.toNat = [c.toNat] := by
            unfold utf8EncodeChar
            rw [if_pos h1]
          rw [e]
          show utf8DecodeAux (f2 + 1) (c.toNat :: utf8Encode rest) = _
          rw [decodeAux_one f2 c.toNat _ h1, hrec]
          simp [Char.ofNat_toNat]
        · by_cases h2 : c.toNat < 2048
          · rw [decodeAux_two f2 c.toNat _ (by omega) h2, hrec]
            simp [Char.ofNat_toNat]
          · rw [decodeAux_three f2 c.toNat _ (by omega) (by omega) (by omega), hrec]
            simp [Char.ofNat_toNat]
      · by_cases h2 : c.toNat < 65536
        · rw [decodeAux_three f2 c.toNat _ (by omega) h2 (by omega), hrec]
          simp [Char.ofNat_toNat]
        · rw [decodeAux_four f2 c.toNat _ (by omega) (by omega), hrec]
          simp [Char.ofNat_toNat]

theorem utf8Decode_encode (s : Str) : utf8Decode (utf8Encode s) = some s :=
  decode_encode_aux s (utf8Encode s).length (length_le_utf8Encode s)




theorem not_space_ne (c : Char) (h : isPySpace c = false) :
    c ≠ ' ' ∧ c ≠ '\t' ∧ c ≠ '\n' ∧ c ≠ '\r' := by
  refine ⟨?_, ?_, ?_, ?_⟩ <;> (intro hc; subst hc; simp [isPySpace] at h)

theorem get_content_val (t : Tree) (hc : cacheOk t) :
    (t.get_content).1 = treeContent t.entries := by
  obtain ⟨es, ch, cc⟩ := t
  rcases hc with ⟨hcc, _⟩
  cases cc with
  | none => rfl
  | some c =>
    rcases hcc with h | h
    · cases h
    · show c = treeContent es
      simpa using h

theorem get_content_entries (t : Tree) : ((t.get_content).2).entries = t.entries := by
  obtain ⟨es, ch, cc⟩ := t
  cases cc <;> rfl

theorem hashProp_val (t : Tree) (hc : cacheOk t) :
    (t.hashProp).1 = hashObjectStr (chars "tree") (treeContent t.entries) := by
  obtain ⟨es, ch, cc⟩ := t
  obtain ⟨hcc, hch⟩ := hc
  cases ch with
  | some h =>
    rcases hch with h2 | h2
    · cases h2
    · show h = _
      simpa using h2
  | none =>
    dsimp only [Tree.hashProp]
    rw [get_content_val ⟨es, none, cc⟩ ⟨hcc, by simp⟩]

theorem serialize_val (t : Tree) (hc : cacheOk t) :
    (t.serialize).1 = utf8Encode (chars "tree" ++ ' ' :: natToStr (treeContent t.entries).length)
      ++ 0 :: utf8Encode (treeContent t.entries) := by
  unfold Tree.serialize
  simp only
  rw [get_content_val t hc]
  rw [show chars "tree" ++ ' ' :: natToStr (treeContent t.entries).length ++ ['\x00']
      = (chars "tree" ++ ' ' :: natToStr (treeContent t.entries).length) ++ ['\x00'] by simp,
    utf8Encode_append]
  have e1 : utf8Encode ['\x00'] = [0] := by
    rw [utf8Encode_cons]
    simp [utf8Encode]
    decide
  rw [e1]
  simp

theorem header_no_null (kind : Str) (len : Nat) (hk : ∀ c ∈ kind, c ≠ '\x00') :
    ∀ b ∈ utf8Encode (kind ++ ' ' :: natToStr len), b ≠ 0 := by
  intro b hb hb0
  subst hb0
  refine zero_not_mem_utf8Encode _ ?_ hb
  intro c hc
  rcases List.mem_append.mp hc with h1 | h1
  · exact hk c h1
  · rcases List.mem_cons.mp h1 with rfl | h2
    · decide
    · exact ((digit_props c (natToStr_digits len c h2)).2).1

theorem header_split (kind : Str) (len : Nat) (hk : ∀ c ∈ kind, c ≠ ' ') :
    splitOnChar ' ' (kind ++ ' ' :: natToStr len) = [kind, natToStr len] := by
  rw [splitOnChar_append_sep ' ' kind _ hk,
    splitOnChar_no_sep ' ' (natToStr len)
      (fun c hc => ((digit_props c (natToStr_digits len c hc)).2).2)]

theorem framed_destruct (kind : Str) (len : Nat) (payload : Bytes)
    (hk0 : ∀ c ∈ kind, c ≠ '\x00') :
    findNull (utf8Encode (kind ++ ' ' :: natToStr len) ++ 0 :: payload)
      = some (utf8Encode (kind ++ ' ' :: natToStr len)).length ∧
    (utf8Encode (kind ++ ' ' :: natToStr len) ++ 0 :: payload).take
      (utf8Encode (kind ++ ' ' :: natToStr len)).length
      = utf8Encode (kind ++ ' ' :: natToStr len) ∧
    (utf8Encode (kind ++ ' ' :: natToStr len) ++ 0 :: payload).drop
      ((utf8Encode (kind ++ ' ' :: natToStr len)).length + 1) = payload := by
  refine ⟨findNull_append _ _ (header_no_null kind len hk0), ?_, ?_⟩
  · exact List.take_left _ _
  · exact drop_len_succ_append _ _ _

theorem entryLine_ne_nil (e : TreeEntry) : entryLine e ≠ [] := by
  unfold entryLine
  simp

theorem entryLine_assoc (e : TreeEntry) :
    entryLine e = (e.mode ++ ' ' :: (e.obj_type ++ ' ' :: e.hash)) ++ '\t' :: e.name := by
  unfold entryLine
  simp

theorem parseTreeLine_entryLine (e : TreeEntry) (he : wfEntry e) :
    parseTreeLine (entryLine e) = some e := by
  obtain ⟨hm, ho, hh, hhne, hn⟩ := he
  unfold parseTreeLine
  rw [if_pos]
  · rw [entryLine_assoc,
      splitOnChar_append_sep '\t' _ _ ?tabfree]
    case tabfree =>
      intro c hc
      rcases List.mem_append.mp hc with h1 | h1
      · exact ((not_space_ne c (hm c h1)).2).1
      · rcases List.mem_cons.mp h1 with rfl | h2
        · decide
        · rcases List.mem_append.mp h2 with h3 | h3
          · exact ((not_space_ne c (ho c h3)).2).1
          · rcases List.mem_cons.mp h3 with rfl | h4
            · decide
            · exact ((not_space_ne c (hh c h4)).2).1
    rw [splitOnChar_no_sep '\t' e.name (fun c hc => (hn c hc).1)]
    show (match splitOnChar ' ' (e.mode ++ ' ' :: (e.obj_type ++ ' ' :: e.hash)) with
      | [mode, otype, ohash] =>
          some (⟨mode, otype, ohash, e.name⟩ : TreeEntry)
      | _ => none) = some e
    rw [splitOnChar_append_sep ' ' _ _ (fun c hc => (not_space_ne c (hm c hc)).1),
      splitOnChar_append_sep ' ' _ _ (fun c hc => (not_space_ne c (ho c hc)).1),
      splitOnChar_no_sep ' ' e.hash (fun c hc => (not_space_ne c (hh c hc)).1)]
  · rcases hq : e.hash with _ | ⟨h0, hrest⟩
    · exact absurd hq hhne
    · refine pyStrip_ne_nil _ h0 ?_ ?_
      · rw [entryLine_assoc]
        refine List.mem_append.mpr (Or.inl ?_)
        refine List.mem_append.mpr (Or.inr ?_)
        refine List.mem_cons.mpr (Or.inr ?_)
        refine List.mem_append.mpr (Or.inr ?_)
        refine List.mem_cons.mpr (Or.inr ?_)
        rw [hq]; simp
      · exact hh h0 (by rw [hq]; simp)

theorem foldl_parse_lines (es : List TreeEntry) (t0 : Tree)
    (hp : ∀ e ∈ es, parseTreeLine (entryLine e) = some e) :
    (es.map entryLine).foldl
      (fun t line => match parseTreeLine line with
        | some e => t.add_entry e
        | none => t) t0
    = es.foldl (fun t e => t.add_entry e) t0 := by
  induction es generalizing t0 with
  | nil => rfl
  | cons e rest ih =>
    simp only [List.map_cons, List.foldl_cons]
    rw [hp e (by simp)]
    exact ih _ (fun x hx => hp x (by simp [hx]))

theorem joinWith_ne_nil (sep : Char) (l : Str) (ls : List Str) (h : l ≠ []) :
    joinWith sep (l :: ls) ≠ [] := by
  cases ls with
  | nil => exact h
  | cons y ys =>
    rw [joinWith_cons_cons]
    cases l with
    | nil => simp
    | cons c cs => simp

theorem entryLine_no_newline (e : TreeEntry) (he : wfEntry e) :
    ∀ c ∈ entryLine e, c ≠ '\n' := by
  obtain ⟨hm, ho, hh, hhne, hn⟩ := he
  intro c hc
  rw [entryLine_assoc] at hc
  rcases List.mem_append.mp hc with h1 | h1
  · rcases List.mem_append.mp h1 with h2 | h2
    · exact ((not_space_ne c (hm c h2)).2).2.1
    · rcases List.mem_cons.mp h2 with rfl | h3
      · decide
      · rcases List.mem_append.mp h3 with h4 | h4
        · exact ((not_space_ne c (ho c h4)).2).2.1
        · rcases List.mem_cons.mp h4 with rfl | h5
          · decide
          · exact ((not_space_ne c (hh c h5)).2).2.1
  · rcases List.mem_cons.mp h1 with rfl | h2
    · decide
    · exact (hn c h2).2

theorem treeContent_sort_idem (es : List TreeEntry) :
    treeContent (sortEntries es) = treeContent es := by
  unfold treeContent
  rw [sortEntries_idem]

theorem tree_roundtrip (t : Tree) (hw : wfTree t) :
    ∃ t2 : Tree, Tree.deserialize (t.serialize).1 = .ok t2 ∧
      t2.entries = sortEntries t.entries ∧
      (t2.get_content).1 = (t.get_content).1 ∧
      (t2.hashProp).1 = (t.hashProp).1 := by
  obtain ⟨hwf, hnd, hcache⟩ := hw
  have hk0 : ∀ c ∈ chars "tree", c ≠ '\x00' := by decide
  have hks : ∀ c ∈ chars "tree", c ≠ ' ' := by decide
  obtain ⟨hfind, htake, hdrop⟩ :=
    framed_destruct (chars "tree") (treeContent t.entries).length
      (utf8Encode (treeContent t.entries)) hk0
  have hsorted_wf : ∀ e ∈ sortEntries t.entries, wfEntry e :=
    fun e he => hwf e ((sortEntries_perm t.entries).subset he)
  have hlines : treeContent t.entries
      = joinWith '\n' ((sortEntries t.entries).map entryLine) := rfl
  have hparse : (treeContent t.entries ≠ [] ∧ Tree.deserialize (t.serialize).1 =
      .ok ((splitOnChar '\n' (treeContent t.entries)).foldl
        (fun t line => match parseTreeLine line with
          | some e => t.add_entry e
          | none => t) Tree.new))
      ∨ (treeContent t.entries = [] ∧ Tree.deserialize (t.serialize).1 = .ok Tree.new) := by
    unfold Tree.deserialize
    rw [serialize_val t hcache]
    simp only [hfind, htake, hdrop, utf8Decode_encode, header_split (chars "tree") _ hks]
    rw [if_neg (by simp)]
    by_cases hce : treeContent t.entries = []
    · right
      refine ⟨hce, ?_⟩
      rw [if_neg (by simp [hce])]
    · left
      refine ⟨hce, ?_⟩
      rw [if_pos hce]
  rcases hparse with ⟨hce, hds⟩ | ⟨hce, hds⟩
  · have hmapne : (sortEntries t.entries).map entryLine ≠ [] := by
      intro hmap
      rw [hlines, hmap] at hce
      exact hce rfl
    have hsplit : splitOnChar '\n' (treeContent t.entries)
        = (sortEntries t.entries).map entryLine := by
      rw [hlines]
      refine splitOnChar_joinWith_all '\n' _ ?_ hmapne
      intro l hl
      obtain ⟨e, he, rfl⟩ := List.mem_map.mp hl
      exact entryLine_no_newline e (hsorted_wf e he)
    rw [hsplit, foldl_parse_lines _ _
      (fun e he => parseTreeLine_entryLine e (hsorted_wf e he))] at hds
    have hfold := foldl_add_entry (sortEntries t.entries) []
      (by intro x hx; simp at hx)
      (((sortEntries_perm t.entries).map (fun e => e.name)).nodup_iff.mpr hnd)
    have hnew : (Tree.new : Tree) = (⟨[], none, none⟩ : Tree) := rfl
    rw [hnew, hfold] at hds
    refine ⟨⟨sortEntries t.entries, none, none⟩, by simpa using hds, rfl, ?_, ?_⟩
    · rw [get_content_val t hcache,
        get_content_val ⟨sortEntries t.entries, none, none⟩ (by constructor <;> simp),
        treeContent_sort_idem]
    · rw [hashProp_val t hcache,
        hashProp_val ⟨sortEntries t.entries, none, none⟩ (by constructor <;> simp),
        treeContent_sort_idem]
  · have hesnil : sortEntries t.entries = [] := by
      by_contra hne
      rcases hq : sortEntries t.entries with _ | ⟨e, rest⟩
      · exact hne hq
      · refine absurd hce ?_
        rw [hlines, hq]
        simp only [List.map_cons]
        exact joinWith_ne_nil '\n' _ _ (entryLine_ne_nil e)
    have hcontent0 : treeContent t.entries = treeContent [] := by
      unfold treeContent
      rw [show sortEntries t.entries = sortEntries [] from hesnil]
    refine ⟨Tree.new, hds, by rw [hesnil]; rfl, ?_, ?_⟩
    · rw [get_content_val Tree.new ⟨Or.inl rfl, Or.inl rfl⟩,
        get_content_val t hcache, hcontent0]
      rfl
    · rw [hashProp_val Tree.new ⟨Or.inl rfl, Or.inl rfl⟩,
        hashProp_val t hcache, hcontent0]
      rfl


theorem takeWhile_all_cons_false {α : Type} (p : α → Bool) (A : List α) (x : α) (B : List α)
    (hA : ∀ a ∈ A, p a = true) (hx : p x = false) : (A ++ x :: B).takeWhile p = A := by
  induction A with
  | nil => simp [List.takeWhile_cons, hx]
  | cons a rest ih =>
    rw [List.cons_append, List.takeWhile_cons, hA a (by simp)]
    rw [ih (fun y hy => hA y (by simp [hy]))]
    simp

theorem dropWhile_all_cons_false {α : Type} (p : α → Bool) (A : List α) (x : α) (B : List α)
    (hA : ∀ a ∈ A, p a = true) (hx : p x = false) : (A ++ x :: B).dropWhile p = x :: B := by
  induction A with
  | nil => simp [List.dropWhile_cons, hx]
  | cons a rest ih =>
    rw [List.cons_append, List.dropWhile_cons_of_pos (hA a (by simp))]
    rw [ih (fun y hy => hA y (by simp [hy]))]

theorem dropWhile_append_single {α : Type} (p : α → Bool) (xs : List α) (c : α)
    (hc : p c = false) : ∃ s, (xs ++ [c]).dropWhile p = s ++ [c] := by
  induction xs with
  | nil => exact ⟨[], by simp [List.dropWhile_cons, hc]⟩
  | cons x rest ih =>
    by_cases hx : p x = true
    · obtain ⟨s, hs⟩ := ih
      exact ⟨s, by rw [List.cons_append, List.dropWhile_cons_of_pos hx]; exact hs⟩
    · exact ⟨x :: rest, by
        rw [List.cons_append, List.dropWhile_cons_of_neg (by simpa using hx)]⟩

theorem pyStrip_head (l : Str) (a : Char) (hh : l.head? = some a) (ha : isPySpace a = false) :
    (pyStrip l).head? = some a := by
  cases l with
  | nil => simp at hh
  | cons c rest =>
    have hac : c = a := by simpa using hh
    subst hac
    unfold pyStrip
    rw [List.dropWhile_cons_of_neg (by simp [ha])]
    have hrev : (c :: rest).reverse = rest.reverse ++ [c] := by simp
    rw [hrev]
    obtain ⟨s, hs⟩ := dropWhile_append_single isPySpace rest.reverse c ha
    rw [hs]
    simp

theorem isPrefixOf_false_of_head (c1 c2 : Char) (t1 t2 : Str) (h : c1 ≠ c2) :
    (c1 :: t1).isPrefixOf (c2 :: t2) = false := by
  simp [List.isPrefixOf, h]

theorem commitStep_tree_keep (st : CommitParse) (line : Str)
    (h : (chars "tree ").isPrefixOf (pyStrip line) = false) :
    (commitStep st line).tree_hash = st.tree_hash := by
  unfold commitStep
  simp only [h]
  split_ifs <;> simp_all

theorem line_strip_self (tag : Str) (h : Str) (hts : ∀ c ∈ tag, isPySpace c = false)
    (hne : h ≠ []) (hns : ∀ c ∈ h, isPySpace c = false) (htagne : tag ≠ []) :
    pyStrip (tag ++ ' ' :: h) = tag ++ ' ' :: h := by
  refine pyStrip_eq_self _ ?_ ?_
  · intro c hc
    rcases ht : tag with _ | ⟨t0, trest⟩
    · exact absurd ht htagne
    · rw [ht] at hc
      have hct : t0 = c := by simpa using hc
      subst hct
      exact hts t0 (by rw [ht]; simp)
  · intro c hc
    have hgl : (tag ++ ' ' :: h).getLast? = h.getLast? := by
      rw [show ' ' :: h = [' '] ++ h by rfl, ← List.append_assoc]
      exact List.getLast?_append_of_ne_nil _ hne
    rw [hgl] at hc
    exact hns c (mem_of_getLast?_eq h c hc)

theorem line_strip_ne_nil (tag : Str) (h : Str) (hne : h ≠ [])
    (hns : ∀ c ∈ h, isPySpace c = false) :
    pyStrip (tag ++ ' ' :: h) ≠ [] := by
  rcases hq : h with _ | ⟨h0, hrest⟩
  · exact absurd hq hne
  · refine pyStrip_ne_nil _ h0 ?_ (hns h0 (by simp [hq]))
    refine List.mem_append.mpr (Or.inr ?_)
    refine List.mem_cons.mpr (Or.inr ?_)
    simp [hq]


theorem commit_serialize_val (c : Commit) :
    c.serialize = utf8Encode (chars "commit" ++ ' ' :: natToStr c.content.length)
      ++ 0 :: utf8Encode c.content := by
  unfold Commit.serialize
  rw [show chars "commit" ++ ' ' :: natToStr c.content.length ++ ['\x00']
      = (chars "commit" ++ ' ' :: natToStr c.content.length) ++ ['\x00'] by simp,
    utf8Encode_append]
  have e1 : utf8Encode ['\x00'] = [0] := by
    rw [utf8Encode_cons]
    simp [utf8Encode]
    decide
  rw [e1]
  simp

theorem tag_serialize_val (t : Tag) :
    t.serialize = utf8Encode (chars "tag" ++ ' ' :: natToStr t.content.length)
      ++ 0 :: utf8Encode t.content := by
  unfold Tag.serialize
  rw [show chars "tag" ++ ' ' :: natToStr t.content.length ++ ['\x00']
      = (chars "tag" ++ ' ' :: natToStr t.content.length) ++ ['\x00'] by simp,
    utf8Encode_append]
  have e1 : utf8Encode ['\x00'] = [0] := by
    rw [utf8Encode_cons]
    simp [utf8Encode]
    decide
  rw [e1]
  simp

theorem isPrefixOf_false_of_head_ne (c1 : Char) (t1 l : Str) (a : Char)
    (hh : l.head? = some a) (hne : c1 ≠ a) : (c1 :: t1).isPrefixOf l = false := by
  cases l with
  | nil => simp at hh
  | cons b bs =>
    have hab : b = a := by simpa using hh
    subst hab
    exact isPrefixOf_false_of_head c1 b t1 bs hne

theorem splitOnChar_head (sep c : Char) (rest : Str) (hc : c ≠ sep) :
    ∃ p ps, splitOnChar sep (c :: rest) = (c :: p) :: ps := by
  simp only [splitOnChar]
  rcases h : splitOnChar sep rest with _ | ⟨p, ps⟩
  · exact absurd h (splitOnChar_ne_nil sep rest)
  · refine ⟨p, ps, ?_⟩
    simp [hc]

theorem msg_extract (message : Str) (hmsg : pyStrip message = message) :
    pyStrip (joinWith '\n' ((([] : Str) :: splitOnChar '\n' message).dropWhile
      (fun l => pyStrip l = []))) = message := by
  rw [List.dropWhile_cons_of_pos (by simp [pyStrip])]
  cases hm : message with
  | nil =>
    rw [hm] at hmsg
    simp only [splitOnChar]
    rw [List.dropWhile_cons_of_pos (by simp [pyStrip])]
    rfl
  | cons m0 mrest =>
    have hm0 : isPySpace m0 = false :=
      head_not_space_of_strip_eq message hmsg m0 (by rw [hm]; rfl)
    have hm0n : m0 ≠ '\n' := by
      intro h0
      rw [h0] at hm0
      simp [isPySpace] at hm0
    obtain ⟨p, ps, hsp⟩ := splitOnChar_head '\n' m0 mrest hm0n
    rw [hsp]
    rw [List.dropWhile_cons_of_neg (by
      simp only [decide_eq_true_eq]
      exact fun hq => pyStrip_ne_nil (m0 :: p) m0 (by simp) hm0 hq)]
    rw [← hsp, joinWith_split]
    rw [hm] at hmsg
    exact hmsg

theorem commitStep_tree (st : CommitParse) (h : Str) (hne : h ≠ [])
    (hns : ∀ c ∈ h, isPySpace c = false) :
    commitStep st (chars "tree" ++ ' ' :: h) = { st with tree_hash := h } := by
  unfold commitStep
  rw [line_strip_self (chars "tree") h (by decide) hne hns (by decide)]
  rw [if_pos (by simp [List.isPrefixOf, chars])]
  have hd : (chars "tree" ++ ' ' :: h).drop 5 = h := rfl
  rw [hd]

theorem commitStep_parent (st : CommitParse) (h : Str) (hne : h ≠ [])
    (hns : ∀ c ∈ h, isPySpace c = false) :
    commitStep st (chars "parent" ++ ' ' :: h) = { st with parent_hash := some h } := by
  unfold commitStep
  rw [line_strip_self (chars "parent") h (by decide) hne hns (by decide)]
  rw [if_neg (by simp [List.isPrefixOf, chars]), if_pos (by simp [List.isPrefixOf, chars])]
  have hd : (chars "parent" ++ ' ' :: h).drop 7 = h := rfl
  rw [hd]

theorem commit_content_lines (c : Commit) (hauth : c.author = []) (hcomm : c.committer = []) :
    c.content = joinWith '\n'
      (([chars "tree" ++ ' ' :: c.tree_hash]
        ++ (match c.parent_hash with
            | some p => if p ≠ [] then [chars "parent" ++ ' ' :: p] else []
            | none => []) ++ [[]]) ++ [c.message]) := by
  unfold Commit.content
  rw [hauth, hcomm]
  simp

theorem commit_roundtrip_empty (c : Commit) (now : Str)
    (hauth : c.author = []) (hcomm : c.committer = [])
    (htne : c.tree_hash ≠ []) (htns : ∀ ch ∈ c.tree_hash, isPySpace ch = false)
    (hpar : c.parent_hash = none ∨
      ∃ p, c.parent_hash = some p ∧ p ≠ [] ∧ (∀ ch ∈ p, isPySpace ch = false))
    (hmsg : pyStrip c.message = c.message) :
    Commit.deserialize c.serialize now =
      .ok ⟨c.tree_hash, c.parent_hash, [], [], c.message, now⟩ := by
  obtain ⟨hfind, htake, hdrop⟩ := framed_destruct (chars "commit") c.content.length
    (utf8Encode c.content) (by decide)
  unfold Commit.deserialize
  rw [commit_serialize_val c]
  simp only [hfind, htake, hdrop, utf8Decode_encode,
    header_split (chars "commit") _ (by decide)]
  rw [if_neg (by simp)]
  -- the header-line block
  have hdrfree : ∀ l ∈ ([chars "tree" ++ ' ' :: c.tree_hash]
      ++ (match c.parent_hash with
          | some p => if p ≠ [] then [chars "parent" ++ ' ' :: p] else []
          | none => []) ++ [[]]), ∀ ch ∈ l, ch ≠ '\n' := by
    intro l hl ch hc
    rcases List.mem_append.mp hl with h1 | h1
    · rcases List.mem_append.mp h1 with h2 | h2
      · have hll : l = chars "tree" ++ ' ' :: c.tree_hash := by simpa using h2
        subst hll
        rcases List.mem_append.mp hc with h3 | h3
        · exact (by decide : ∀ x ∈ chars "tree", x ≠ '\n') ch h3
        · rcases List.mem_cons.mp h3 with rfl | h4
          · decide
          · exact ((not_space_ne ch (htns ch h4)).2).2.1
      · rcases hpar with hp | ⟨p, hp, hpne, hpns⟩
        · simp only [hp] at h2; simp at h2
        · simp only [hp] at h2
          rw [if_pos hpne] at h2
          have hll : l = chars "parent" ++ ' ' :: p := by simpa using h2
          subst hll
          rcases List.mem_append.mp hc with h3 | h3
          · exact (by decide : ∀ x ∈ chars "parent", x ≠ '\n') ch h3
          · rcases List.mem_cons.mp h3 with rfl | h4
            · decide
            · exact ((not_space_ne ch (hpns ch h4)).2).2.1
    · have hll : l = [] := by simpa using h1
      subst hll
      simp at hc
  rw [commit_content_lines c hauth hcomm,
    splitOnChar_joinWith_append '\n' _ c.message hdrfree]
  -- rearrange (A ++ [x]) ++ B into A ++ x :: B
  rw [show ([chars "tree" ++ ' ' :: c.tree_hash]
      ++ (match c.parent_hash with
          | some p => if p ≠ [] then [chars "parent" ++ ' ' :: p] else []
          | none => []) ++ [[]]) ++ splitOnChar '\n' c.message
    = ([chars "tree" ++ ' ' :: c.tree_hash]
      ++ (match c.parent_hash with
          | some p => if p ≠ [] then [chars "parent" ++ ' ' :: p] else []
          | none => [])) ++ ([] : Str) :: splitOnChar '\n' c.message by simp]
  have hstrips : ∀ l ∈ ([chars "tree" ++ ' ' :: c.tree_hash]
      ++ (match c.parent_hash with
          | some p => if p ≠ [] then [chars "parent" ++ ' ' :: p] else []
          | none => [])), (pyStrip l ≠ [] : Bool) = true := by
    intro l hl
    simp only [decide_eq_true_eq]
    rcases List.mem_append.mp hl with h1 | h1
    · have hll : l = chars "tree" ++ ' ' :: c.tree_hash := by simpa using h1
      subst hll
      exact line_strip_ne_nil _ _ htne htns
    · rcases hpar with hp | ⟨p, hp, hpne, hpns⟩
      · simp only [hp] at h1; simp at h1
      · simp only [hp] at h1
        rw [if_pos hpne] at h1
        have hll : l = chars "parent" ++ ' ' :: p := by simpa using h1
        subst hll
        exact line_strip_ne_nil _ _ hpne hpns
  rw [takeWhile_all_cons_false _ _ _ _ hstrips (by simp [pyStrip]),
    dropWhile_all_cons_false _ _ _ _ hstrips (by simp [pyStrip])]
  rw [msg_extract c.message hmsg]
  rcases hpar with hp | ⟨p, hp, hpne, hpns⟩
  · simp only [hp, List.append_nil, List.foldl_cons, List.foldl_nil]
    rw [commitStep_tree _ _ htne htns]
    rw [if_neg (by simp)]
  · simp only [hp]
    rw [if_pos hpne]
    simp only [List.cons_append, List.nil_append, List.foldl_cons, List.foldl_nil]
    rw [commitStep_tree _ _ htne htns, commitStep_parent _ _ hpne hpns]
    rw [if_neg (by simp)]


theorem tagStep_object (st : TagParse) (h : Str) (hne : h ≠ [])
    (hns : ∀ c ∈ h, isPySpace c = false) :
    tagStep st (chars "object" ++ ' ' :: h) = { st with target_hash := h } := by
  unfold tagStep
  rw [line_strip_self (chars "object") h (by decide) hne hns (by decide)]
  rw [if_pos (by simp [List.isPrefixOf, chars])]
  have hd : (chars "object" ++ ' ' :: h).drop 7 = h := rfl
  rw [hd]

theorem tagStep_type (st : TagParse) (h : Str) (hne : h ≠ [])
    (hns : ∀ c ∈ h, isPySpace c = false) :
    tagStep st (chars "type" ++ ' ' :: h) = { st with target_type := h } := by
  unfold tagStep
  rw [line_strip_self (chars "type") h (by decide) hne hns (by decide)]
  rw [if_neg (by simp [List.isPrefixOf, chars]), if_pos (by simp [List.isPrefixOf, chars])]
  have hd : (chars "type" ++ ' ' :: h).drop 5 = h := rfl
  rw [hd]

theorem tagStep_tag (st : TagParse) (h : Str) (hne : h ≠ [])
    (hns : ∀ c ∈ h, isPySpace c = false) :
    tagStep st (chars "tag" ++ ' ' :: h) = { st with tag_name := h } := by
  unfold tagStep
  rw [line_strip_self (chars "tag") h (by decide) hne hns (by decide)]
  rw [if_neg (by simp [List.isPrefixOf, chars]), if_neg (by simp [List.isPrefixOf, chars]),
    if_pos (by simp [List.isPrefixOf, chars])]
  have hd : (chars "tag" ++ ' ' :: h).drop 4 = h := rfl
  rw [hd]

theorem tag_content_lines (t : Tag) (htag : t.tagger = []) :
    t.content = joinWith '\n'
      (([chars "object" ++ ' ' :: t.target_hash, chars "type" ++ ' ' :: t.target_type,
         chars "tag" ++ ' ' :: t.tag_name] ++ [[]]) ++ [t.message]) := by
  unfold Tag.content
  rw [htag]
  simp

theorem tag_roundtrip_empty (t : Tag) (now : Str) (htag : t.tagger = [])
    (hhne : t.target_hash ≠ []) (hhns : ∀ c ∈ t.target_hash, isPySpace c = false)
    (htyne : t.target_type ≠ []) (htyns : ∀ c ∈ t.target_type, isPySpace c = false)
    (hnne : t.tag_name ≠ []) (hnns : ∀ c ∈ t.tag_name, isPySpace c = false)
    (hmsg : pyStrip t.message = t.message) :
    Tag.deserialize t.serialize now =
      .ok ⟨t.tag_name, t.target_hash, t.target_type, [], t.message, now⟩ := by
  obtain ⟨hfind, htake, hdrop⟩ := framed_destruct (chars "tag") t.content.length
    (utf8Encode t.content) (by decide)
  unfold Tag.deserialize
  rw [tag_serialize_val t]
  simp only [hfind, htake, hdrop, utf8Decode_encode,
    header_split (chars "tag") _ (by decide)]
  rw [if_neg (by simp)]
  have hdrfree : ∀ l ∈ ([chars "object" ++ ' ' :: t.target_hash,
      chars "type" ++ ' ' :: t.target_type, chars "tag" ++ ' ' :: t.tag_name] ++ [[]]),
      ∀ ch ∈ l, ch ≠ '\n' := by
    intro l hl ch hc
    have hcases : l = chars "object" ++ ' ' :: t.target_hash ∨
        l = chars "type" ++ ' ' :: t.target_type ∨
        l = chars "tag" ++ ' ' :: t.tag_name ∨ l = [] := by
      rcases List.mem_append.mp hl with h1 | h1
      · rcases List.mem_cons.mp h1 with h2 | h2
        · exact Or.inl h2
        · rcases List.mem_cons.mp h2 with h3 | h3
          · exact Or.inr (Or.inl h3)
          · exact Or.inr (Or.inr (Or.inl (by simpa using h3)))
      · exact Or.inr (Or.inr (Or.inr (by simpa using h1)))
    rcases hcases with rfl | rfl | rfl | rfl
    · rcases List.mem_append.mp hc with h3 | h3
      · exact (by decide : ∀ x ∈ chars "object", x ≠ '\n') ch h3
      · rcases List.mem_cons.mp h3 with rfl | h4
        · decide
        · exact ((not_space_ne ch (hhns ch h4)).2).2.1
    · rcases List.mem_append.mp hc with h3 | h3
      · exact (by decide : ∀ x ∈ chars "type", x ≠ '\n') ch h3
      · rcases List.mem_cons.mp h3 with rfl | h4
        · decide
        · exact ((not_space_ne ch (htyns ch h4)).2).2.1
    · rcases List.mem_append.mp hc with h3 | h3
      · exact (by decide : ∀ x ∈ chars "tag", x ≠ '\n') ch h3
      · rcases List.mem_cons.mp h3 with rfl | h4
        · decide
        · exact ((not_space_ne ch (hnns ch h4)).2).2.1
    · simp at hc
  rw [tag_content_lines t htag,
    splitOnChar_joinWith_append '\n' _ t.message hdrfree]
  rw [show ([chars "object" ++ ' ' :: t.target_hash, chars "type" ++ ' ' :: t.target_type,
      chars "tag" ++ ' ' :: t.tag_name] ++ [[]]) ++ splitOnChar '\n' t.message
    = [chars "object" ++ ' ' :: t.target_hash, chars "type" ++ ' ' :: t.target_type,
      chars "tag" ++ ' ' :: t.tag_name] ++ ([] : Str) :: splitOnChar '\n' t.message by simp]
  have hstrips : ∀ l ∈ [chars "object" ++ ' ' :: t.target_hash,
      chars "type" ++ ' ' :: t.target_type, chars "tag" ++ ' ' :: t.tag_name],
      (pyStrip l ≠ [] : Bool) = true := by
    intro l hl
    simp only [decide_eq_true_eq]
    rcases List.mem_cons.mp hl with rfl | h1
    · exact line_strip_ne_nil _ _ hhne hhns
    · rcases List.mem_cons.mp h1 with rfl | h2
      · exact line_strip_ne_nil _ _ htyne htyns
      · have : l = chars "tag" ++ ' ' :: t.tag_name := by simpa using h2
        subst this
        exact line_strip_ne_nil _ _ hnne hnns
  rw [takeWhile_all_cons_false _ _ _ _ hstrips (by simp [pyStrip]),
    dropWhile_all_cons_false _ _ _ _ hstrips (by simp [pyStrip])]
  rw [msg_extract t.message hmsg]
  simp only [List.foldl_cons, List.foldl_nil]
  rw [tagStep_object _ _ hhne hhns, tagStep_type _ _ htyne htyns, tagStep_tag _ _ hnne hnns]
  rw [if_neg (by simp)]

theorem commit_content_lines_full (c : Commit) (hpar : c.parent_hash = none)
    (hane : c.author ≠ []) (hcne : c.committer ≠ []) :
    c.content = joinWith '\n'
      (([chars "tree" ++ ' ' :: c.tree_hash,
         chars "author" ++ ' ' :: (c.author ++ ' ' :: c.timestamp),
         chars "committer" ++ ' ' :: (c.committer ++ ' ' :: c.timestamp)] ++ [[]])
        ++ [c.message]) := by
  unfold Commit.content
  rw [hpar, if_pos hane, if_pos hcne]
  simp

theorem commit_parse_tree (c : Commit) (now : Str)
    (htne : c.tree_hash ≠ []) (htns : ∀ ch ∈ c.tree_hash, isPySpace ch = false)
    (hpar : c.parent_hash = none)
    (hane : c.author ≠ []) (hcne : c.committer ≠ [])
    (hanl : ∀ ch ∈ c.author, ch ≠ '\n') (hcnl : ∀ ch ∈ c.committer, ch ≠ '\n')
    (htsnl : ∀ ch ∈ c.timestamp, ch ≠ '\n') :
    ∃ c2, Commit.deserialize c.serialize now = .ok c2 ∧ c2.tree_hash = c.tree_hash := by
  obtain ⟨hfind, htake, hdrop⟩ := framed_destruct (chars "commit") c.content.length
    (utf8Encode c.content) (by decide)
  unfold Commit.deserialize
  rw [commit_serialize_val c]
  simp only [hfind, htake, hdrop, utf8Decode_encode,
    header_split (chars "commit") _ (by decide)]
  rw [if_neg (by simp)]
  have hauth_head : (chars "author" ++ ' ' :: (c.author ++ ' ' :: c.timestamp)).head?
      = some 'a' := rfl
  have hcomm_head : (chars "committer" ++ ' ' :: (c.committer ++ ' ' :: c.timestamp)).head?
      = some 'c' := rfl
  have hdrfree : ∀ l ∈ ([chars "tree" ++ ' ' :: c.tree_hash,
      chars "author" ++ ' ' :: (c.author ++ ' ' :: c.timestamp),
      chars "committer" ++ ' ' :: (c.committer ++ ' ' :: c.timestamp)] ++ [[]]),
      ∀ ch ∈ l, ch ≠ '\n' := by
    intro l hl ch hc
    have hcases : l = chars "tree" ++ ' ' :: c.tree_hash ∨
        l = chars "author" ++ ' ' :: (c.author ++ ' ' :: c.timestamp) ∨
        l = chars "committer" ++ ' ' :: (c.committer ++ ' ' :: c.timestamp) ∨ l = [] := by
      rcases List.mem_append.mp hl with h1 | h1
      · rcases List.mem_cons.mp h1 with h2 | h2
        · exact Or.inl h2
        · rcases List.mem_cons.mp h2 with h3 | h3
          · exact Or.inr (Or.inl h3)
          · exact Or.inr (Or.inr (Or.inl (by simpa using h3)))
      · exact Or.inr (Or.inr (Or.inr (by simpa using h1)))
    have tailfree : ∀ (body : Str), (∀ x ∈ body, x ≠ '\n') →
        ch ∈ ' ' :: (body ++ ' ' :: c.timestamp) → ch ≠ '\n' := by
      intro body hbody hmem
      rcases List.mem_cons.mp hmem with rfl | h4
      · decide
      · rcases List.mem_append.mp h4 with h5 | h5
        · exact hbody ch h5
        · rcases List.mem_cons.mp h5 with rfl | h6
          · decide
          · exact htsnl ch h6
    rcases hcases with rfl | rfl | rfl | rfl
    · rcases List.mem_append.mp hc with h3 | h3
      · exact (by decide : ∀ x ∈ chars "tree", x ≠ '\n') ch h3
      · rcases List.mem_cons.mp h3 with rfl | h4
        · decide
        · exact ((not_space_ne ch (htns ch h4)).2).2.1
    · rcases List.mem_append.mp hc with h3 | h3
      · exact (by decide : ∀ x ∈ chars "author", x ≠ '\n') ch h3
      · exact tailfree c.author hanl (List.mem_cons.mpr (by
          rcases List.mem_cons.mp h3 with rfl | h4
          · exact Or.inl rfl
          · exact Or.inr h4))
    · rcases List.mem_append.mp hc with h3 | h3
      · exact (by decide : ∀ x ∈ chars "committer", x ≠ '\n') ch h3
      · exact tailfree c.committer hcnl (List.mem_cons.mpr (by
          rcases List.mem_cons.mp h3 with rfl | h4
          · exact Or.inl rfl
          · exact Or.inr h4))
    · simp at hc
  rw [commit_content_lines_full c hpar hane hcne,
    splitOnChar_joinWith_append '\n' _ c.message hdrfree]
  rw [show ([chars "tree" ++ ' ' :: c.tree_hash,
      chars "author" ++ ' ' :: (c.author ++ ' ' :: c.timestamp),
      chars "committer" ++ ' ' :: (c.committer ++ ' ' :: c.timestamp)] ++ [[]])
      ++ splitOnChar '\n' c.message
    = [chars "tree" ++ ' ' :: c.tree_hash,
      chars "author" ++ ' ' :: (c.author ++ ' ' :: c.timestamp),
      chars "committer" ++ ' ' :: (c.committer ++ ' ' :: c.timestamp)]
      ++ ([] : Str) :: splitOnChar '\n' c.message by simp]
  have hstrips : ∀ l ∈ [chars "tree" ++ ' ' :: c.tree_hash,
      chars "author" ++ ' ' :: (c.author ++ ' ' :: c.timestamp),
      chars "committer" ++ ' ' :: (c.committer ++ ' ' :: c.timestamp)],
      (pyStrip l ≠ [] : Bool) = true := by
    intro l hl
    simp only [decide_eq_true_eq]
    rcases List.mem_cons.mp hl with rfl | h1
    · exact line_strip_ne_nil _ _ htne htns
    · rcases List.mem_cons.mp h1 with rfl | h2
      · refine pyStrip_ne_nil _ 'a' ?_ (by decide)
        exact List.mem_append.mpr (Or.inl (by decide))
      · have : l = chars "committer" ++ ' ' :: (c.committer ++ ' ' :: c.timestamp) := by
          simpa using h2
        subst this
        refine pyStrip_ne_nil _ 'c' ?_ (by decide)
        exact List.mem_append.mpr (Or.inl (by decide))
  rw [takeWhile_all_cons_false _ _ _ _ hstrips (by simp [pyStrip]),
    dropWhile_all_cons_false _ _ _ _ hstrips (by simp [pyStrip])]
  refine ⟨_, rfl, ?_⟩
  simp only [List.foldl_cons, List.foldl_nil]
  rw [commitStep_tree_keep _ _ (isPrefixOf_false_of_head_ne _ _ _ 'c'
    (pyStrip_head _ 'c' hcomm_head (by decide)) (by decide))]
  rw [commitStep_tree_keep _ _ (isPrefixOf_false_of_head_ne _ _ _ 'a'
    (pyStrip_head _ 'a' hauth_head (by decide)) (by decide))]
  rw [commitStep_tree _ _ htne htns]


theorem blob_serialize_val (b : Blob) :
    b.serialize = utf8Encode (chars "blob" ++ ' ' :: natToStr b.size) ++ 0 :: b.content := by
  unfold Blob.serialize
  rw [show chars "blob" ++ ' ' :: natToStr b.size ++ ['\x00']
      = (chars "blob" ++ ' ' :: natToStr b.size) ++ ['\x00'] by simp,
    utf8Encode_append]
  have e1 : utf8Encode ['\x00'] = [0] := by
    rw [utf8Encode_cons]
    simp [utf8Encode]
    decide
  rw [e1]
  simp

theorem blob_roundtrip (b : Blob) : Blob.deserialize b.serialize = .ok b := by
  obtain ⟨hfind, htake, hdrop⟩ := framed_destruct (chars "blob") b.size b.content (by decide)
  unfold Blob.deserialize
  rw [blob_serialize_val b]
  simp only [hfind, htake, hdrop, utf8Decode_encode,
    header_split (chars "blob") _ (by decide)]
  rw [if_neg (by simp)]

/-- C10: an untracked path is never reported modified; a tracked path
whose file no longer exists is reported modified. -/
theorem c10_untracked_and_missing (idx : List IndexEntry) (fs : FileSys) (path : Str) :
    (getEntry idx path = none → is_file_modified idx fs path = false) ∧
    (∀ e, getEntry idx path = some e → fs path = none →
      is_file_modified idx fs path = true) := by
  constructor
  · intro h
    unfold is_file_modified
    simp only [h]
  · intro e he hfs
    unfold is_file_modified
    simp only [he, hfs]

/-- C2 amended: for a tracked path with an existing file, a mtime or size
difference alone makes the check report modified without consulting the
content (the result is `true` for every content); when both match, the
check goes on to compare the content hash with the stored blob hash, and
the file counts as modified exactly when mtime, size, or content hash
differs. -/
theorem c2_modified_check (idx : List IndexEntry) (fs : FileSys) (path : Str)
    (entry : IndexEntry) (fd : FileData)
    (he : getEntry idx path = some entry) (hfs : fs path = some fd) :
    ((fd.mtime ≠ entry.mtime ∨ fd.content.length ≠ entry.size) →
      is_file_modified idx fs path = true) ∧
    (is_file_modified idx fs path =
      (fd.mtime ≠ entry.mtime ∨ fd.content.length ≠ entry.size ∨
        hash_file_content fd.content ≠ entry.blob_hash : Bool)) := by
  unfold is_file_modified
  simp only [he, hfs]
  constructor
  · intro hdiff
    rcases hdiff with h | h
    · rw [if_pos h]
    · by_cases hmt : fd.mtime ≠ entry.mtime
      · rw [if_pos hmt]
      · rw [if_neg hmt, if_pos h]
  · by_cases hmt : fd.mtime ≠ entry.mtime
    · rw [if_pos hmt]
      simp [hmt]
    · rw [if_neg hmt]
      by_cases hsz : fd.content.length ≠ entry.size
      · rw [if_pos hsz]
        simp [hsz]
      · rw [if_neg hsz]
        by_cases hh : hash_file_content fd.content ≠ entry.blob_hash
        · rw [if_pos hh]
          simp [hh]
        · rw [if_neg hh]
          simp [hmt, hsz, hh]

/-- C3: the diff drops every differing entry whose old side is tree-kind.
With two trees whose common name "d" maps to tree-kind entries with
different hashes, `compare_trees` reports nothing at all (the stubbed
subtree lookup returns `None`, so the recursive descent never happens),
and a tree-to-blob type change is silently dropped as well; only a
blob-kind old entry (including blob-to-tree changes) lands in
`modified`. -/
theorem c3_tree_diff_dropped :
    (compare_trees 10
      ⟨[⟨chars "040000", chars "tree", chars "aaaa", chars "d"⟩], none, none⟩
      ⟨[⟨chars "040000", chars "tree", chars "bbbb", chars "d"⟩], none, none⟩
      = ⟨[], [], [], []⟩) ∧
    (compare_trees 10
      ⟨[⟨chars "040000", chars "tree", chars "aaaa", chars "d"⟩], none, none⟩
      ⟨[⟨chars "100644", chars "blob", chars "cccc", chars "d"⟩], none, none⟩
      = ⟨[], [], [], []⟩) ∧
    (compare_trees 10
      ⟨[⟨chars "100644", chars "blob", chars "cccc", chars "d"⟩], none, none⟩
      ⟨[⟨chars "040000", chars "tree", chars "aaaa", chars "d"⟩], none, none⟩
      = ⟨[], [], [chars "d"], []⟩) := by
  refine ⟨?_, ?_, ?_⟩ <;> decide


/-- C2 counterexample: with matching size and mtime but different content,
the check recomputes the content hash and reports the file as modified —
the claim says it would be reported unmodified without any hash
comparison. -/
theorem c2_counterexample :
    is_file_modified
      [⟨chars "a", chars "100644", sha1Hex [120], 1, 5, 0⟩]
      (fun p => if p == chars "a" then some ⟨[121], 5⟩ else none)
      (chars "a") = true := by decide


theorem insertEntry_single_le (X Y : TreeEntry) (h : strLe X.name Y.name = true) :
    insertEntry X [Y] = [X, Y] := by
  unfold insertEntry
  rw [if_pos h]

theorem insertEntry_single_gt (X Y : TreeEntry) (h : strLe X.name Y.name = false) :
    insertEntry X [Y] = [Y, X] := by
  unfold insertEntry
  rw [if_neg (by simp [h])]
  rfl

theorem sortEntries_pair_comm (A B : TreeEntry) (hne : A.name ≠ B.name) :
    sortEntries [A, B] = sortEntries [B, A] := by
  have l1 : sortEntries [A, B] = insertEntry A [B] := rfl
  have l2 : sortEntries [B, A] = insertEntry B [A] := rfl
  rw [l1, l2]
  rcases strLe_total A.name B.name with h | h
  · have h2 : strLe B.name A.name = false := by
      cases hq : strLe B.name A.name
      · rfl
      · exact absurd (strLe_antisymm _ _ h hq) hne
    rw [insertEntry_single_le A B h, insertEntry_single_gt B A h2]
  · have h2 : strLe A.name B.name = false := by
      cases hq : strLe A.name B.name
      · rfl
      · exact absurd (strLe_antisymm _ _ hq h) hne
    rw [insertEntry_single_gt A B h2, insertEntry_single_le B A h]

/-- C7 amended: for entries with distinct names, insertion order does not
affect the tree hash (the canonical content sorts entries by name).  With
equal names the second insert overwrites the first in the name-keyed
dict, so the claim as stated fails; see the counterexample. -/
theorem c7_order_independence (A B : TreeEntry) (hne : A.name ≠ B.name) :
    (((Tree.new.add_entry A).add_entry B).hashProp).1 =
    (((Tree.new.add_entry B).add_entry A).hashProp).1 := by
  have h1 : (Tree.new.add_entry A).add_entry B = (⟨[A, B], none, none⟩ : Tree) := by
    show (⟨dictInsert (dictInsert [] A) B, none, none⟩ : Tree) = _
    rw [show dictInsert [] A = [A] from rfl,
      dictInsert_not_mem [A] B (by
        intro x hx
        have : x = A := by simpa using hx
        subst this
        exact hne)]
    rfl
  have h2 : (Tree.new.add_entry B).add_entry A = (⟨[B, A], none, none⟩ : Tree) := by
    show (⟨dictInsert (dictInsert [] B) A, none, none⟩ : Tree) = _
    rw [show dictInsert [] B = [B] from rfl,
      dictInsert_not_mem [B] A (by
        intro x hx
        have : x = B := by simpa using hx
        subst this
        exact fun he => hne he.symm)]
    rfl
  rw [h1, h2, hashProp_val _ ⟨Or.inl rfl, Or.inl rfl⟩,
    hashProp_val _ ⟨Or.inl rfl, Or.inl rfl⟩]
  show hashObjectStr _ (treeContent [A, B]) = hashObjectStr _ (treeContent [B, A])
  unfold treeContent
  rw [sortEntries_pair_comm A B hne]

theorem cacheOk_applyOp (t : Tree) (op : TreeOp) (hc : cacheOk t) : cacheOk (applyOp t op) := by
  cases op with
  | addBlob b n m => exact ⟨Or.inl rfl, Or.inl rfl⟩
  | addTreeEntry s n m => exact ⟨Or.inl rfl, Or.inl rfl⟩
  | removeEntry n =>
    show cacheOk (t.remove_entry n).1
    unfold Tree.remove_entry
    split
    · exact ⟨Or.inl rfl, Or.inl rfl⟩
    · exact hc

theorem cacheOk_applyOps (t : Tree) (ops : List TreeOp) (hc : cacheOk t) :
    cacheOk (applyOps t ops) := by
  induction ops generalizing t with
  | nil => exact hc
  | cons op rest ih => exact ih (applyOp t op) (cacheOk_applyOp t op hc)

/-- C9: after any sequence of entry mutations starting from a tree with a
consistent cache, reading the hash returns exactly the hash recomputed
from the now-current entry set, and the cache stays consistent — a stale
hash is never observed. -/
theorem c9_no_stale_hash (t : Tree) (ops : List TreeOp) (hc : cacheOk t) :
    ((applyOps t ops).hashProp).1 =
      hashObjectStr (chars "tree") (treeContent (applyOps t ops).entries) ∧
    cacheOk (applyOps t ops) := by
  have main := cacheOk_applyOps t ops hc
  exact ⟨hashProp_val _ main, main⟩

theorem getObjectPath_ge2 (h : Str) (hl : 2 ≤ h.length) :
    getObjectPath h = .ok (h.take 2, h.drop 2) := by
  unfold getObjectPath
  rw [if_neg (by omega)]

theorem storeLookup_cons (pe : ObjPath) (d : Bytes) (s : Store) (q : ObjPath) :
    storeLookup ((pe, d) :: s) q = if pe == q then some d else storeLookup s q := by
  unfold storeLookup
  rw [List.find?_cons]
  cases h : (pe == q) with
  | true => simp [h]
  | false => simp [h]

theorem store_object_skip (s : Store) (obj : PyObj) (hl : 2 ≤ obj.hash.length) (d : Bytes)
    (hp : storeLookup s (obj.hash.take 2, obj.hash.drop 2) = some d) :
    store_object s obj = .ok (obj.hash, s) := by
  unfold store_object
  dsimp only
  rw [getObjectPath_ge2 _ hl]
  show (match storeLookup s (obj.hash.take 2, obj.hash.drop 2) with
    | some _ => (Except.ok (obj.hash, s) : Except PyErr (Str × Store))
    | none => Except.ok (obj.hash,
        ((obj.hash.take 2, obj.hash.drop 2), zlibCompress obj.serializeBytes) :: s)) = _
  rw [hp]

theorem store_object_write (s : Store) (obj : PyObj) (hl : 2 ≤ obj.hash.length)
    (hp : storeLookup s (obj.hash.take 2, obj.hash.drop 2) = none) :
    store_object s obj = .ok (obj.hash,
      ((obj.hash.take 2, obj.hash.drop 2), zlibCompress obj.serializeBytes) :: s) := by
  unfold store_object
  dsimp only
  rw [getObjectPath_ge2 _ hl]
  show (match storeLookup s (obj.hash.take 2, obj.hash.drop 2) with
    | some _ => (Except.ok (obj.hash, s) : Except PyErr (Str × Store))
    | none => Except.ok (obj.hash,
        ((obj.hash.take 2, obj.hash.drop 2), zlibCompress obj.serializeBytes) :: s)) = _
  rw [hp]

theorem blobHash_length (b : Blob) : b.hash.length = 40 := sha1Hex_length _

theorem commitHash_length (c : Commit) : c.hash.length = 40 := sha1Hex_length _

/-- C6: storing an object whose file already exists skips the write and
returns the same hash; storing a blob of given bytes twice starting from
an empty store yields the same hash both times and exactly one object
file on disk. -/
theorem c6_dedup (s : Store) (obj : PyObj) (d : Bytes) (content : Bytes)
    (hl : 2 ≤ obj.hash.length)
    (hp : storeLookup s (obj.hash.take 2, obj.hash.drop 2) = some d) :
    store_object s obj = .ok (obj.hash, s) ∧
    (∃ s1 : Store, store_object [] (.blob ⟨content⟩) = .ok ((Blob.mk content).hash, s1) ∧
      s1.length = 1 ∧
      store_object s1 (.blob ⟨content⟩) = .ok ((Blob.mk content).hash, s1)) := by
  have hbl : 2 ≤ (PyObj.hash (.blob ⟨content⟩)).length := by
    show 2 ≤ (Blob.mk content).hash.length
    rw [blobHash_length]
    omega
  constructor
  · exact store_object_skip s obj hl d hp
  · have h1 := store_object_write [] (.blob ⟨content⟩) hbl (by rfl)
    refine ⟨_, h1, rfl, ?_⟩
    refine store_object_skip _ _ hbl (zlibCompress (PyObj.serializeBytes (.blob ⟨content⟩))) ?_
    rw [storeLookup_cons, if_pos (beq_self_eq_true _)]


theorem framed_destruct2 (hdr : Str) (payload : Bytes) (h0 : ∀ c ∈ hdr, c ≠ '\x00') :
    findNull (utf8Encode hdr ++ 0 :: payload) = some (utf8Encode hdr).length ∧
    (utf8Encode hdr ++ 0 :: payload).take (utf8Encode hdr).length = utf8Encode hdr ∧
    (utf8Encode hdr ++ 0 :: payload).drop ((utf8Encode hdr).length + 1) = payload := by
  have hnz : ∀ b ∈ utf8Encode hdr, b ≠ 0 := by
    intro b hb hb0
    subst hb0
    exact zero_not_mem_utf8Encode _ h0 hb
  exact ⟨findNull_append _ _ hnz, List.take_left _ _, drop_len_succ_append _ _ _⟩

/-- C5 amended: `get_object` fails with the Python `FileNotFoundError`
(NotFound) when no file exists at the sharded path, and with `ValueError`
(CorruptObject) when the stored data has no null byte, when the header is
not exactly two space-separated fields, or when the kind is not one of
blob/tree/commit/tag; but the declared length is never compared with the
payload: a well-formed "blob <anything>" header is accepted with any
second field and any payload length. -/
theorem c5_get_object_errors (s : Store) (h now : Str) (data : Bytes)
    (hdr kind len : Str) (payload : Bytes)
    (hl : 2 ≤ h.length)
    (habsent : storeLookup s (h.take 2, h.drop 2) = none)
    (hdata : findNull data = none)
    (hhdr0 : ∀ c ∈ hdr, c ≠ '\x00') (hhdrsp : ∀ c ∈ hdr, c ≠ ' ')
    (hkind0 : ∀ c ∈ kind, c ≠ '\x00') (hkindsp : ∀ c ∈ kind, c ≠ ' ')
    (hlen0 : ∀ c ∈ len, c ≠ '\x00') (hlensp : ∀ c ∈ len, c ≠ ' ')
    (hkindbad : kind ≠ chars "blob" ∧ kind ≠ chars "tree" ∧
      kind ≠ chars "commit" ∧ kind ≠ chars "tag") :
    (get_object s h now = .error (.fileNotFound (chars "对象不存在: " ++ h))) ∧
    (∀ s2 : Store, storeLookup s2 (h.take 2, h.drop 2) = some data →
      get_object s2 h now = .error (.valueError (chars "无效的对象格式: " ++ h))) ∧
    (∀ s2 : Store, storeLookup s2 (h.take 2, h.drop 2)
        = some (utf8Encode hdr ++ 0 :: payload) →
      get_object s2 h now = .error (.valueError (chars "无效的对象头部: " ++ h))) ∧
    (∀ s2 : Store, storeLookup s2 (h.take 2, h.drop 2)
        = some (utf8Encode (kind ++ ' ' :: len) ++ 0 :: payload) →
      get_object s2 h now = .error (.valueError (chars "未知的对象类型: " ++ kind))) ∧
    (∀ s2 : Store, storeLookup s2 (h.take 2, h.drop 2)
        = some (utf8Encode (chars "blob" ++ ' ' :: len) ++ 0 :: payload) →
      get_object s2 h now = .ok (.blob ⟨payload⟩)) := by
  refine ⟨?_, ?_, ?_, ?_, ?_⟩
  · unfold get_object
    dsimp only
    rw [getObjectPath_ge2 _ hl]
    show (match storeLookup s (h.take 2, h.drop 2) with
      | none => (Except.error (.fileNotFound (chars "对象不存在: " ++ h))
          : Except PyErr PyObj)
      | some compressed => _) = _
    rw [habsent]
  · intro s2 hs2
    unfold get_object
    dsimp only
    rw [getObjectPath_ge2 _ hl]
    show (match storeLookup s2 (h.take 2, h.drop 2) with
      | none => (Except.error (.fileNotFound (chars "对象不存在: " ++ h))
          : Except PyErr PyObj)
      | some compressed => _) = _
    rw [hs2]
    show (match findNull data with
      | none => (Except.error (.valueError (chars "无效的对象格式: " ++ h))
          : Except PyErr PyObj)
      | some nullPos => _) = _
    rw [hdata]
  · intro s2 hs2
    obtain ⟨hfind, htake, hdrop⟩ := framed_destruct2 hdr payload hhdr0
    unfold get_object
    dsimp only
    rw [getObjectPath_ge2 _ hl]
    show (match storeLookup s2 (h.take 2, h.drop 2) with
      | none => (Except.error (.fileNotFound (chars "对象不存在: " ++ h))
          : Except PyErr PyObj)
      | some compressed => _) = _
    rw [hs2]
    simp only [zlibDecompress, hfind, htake, hdrop, utf8Decode_encode,
      splitOnChar_no_sep ' ' hdr hhdrsp]
    rw [if_pos (by simp)]
  · intro s2 hs2
    obtain ⟨hfind, htake, hdrop⟩ := framed_destruct2 (kind ++ ' ' :: len) payload (by
      intro c hc
      rcases List.mem_append.mp hc with h1 | h1
      · exact hkind0 c h1
      · rcases List.mem_cons.mp h1 with rfl | h2
        · decide
        · exact hlen0 c h2)
    unfold get_object
    dsimp only
    rw [getObjectPath_ge2 _ hl]
    show (match storeLookup s2 (h.take 2, h.drop 2) with
      | none => (Except.error (.fileNotFound (chars "对象不存在: " ++ h))
          : Except PyErr PyObj)
      | some compressed => _) = _
    rw [hs2]
    simp only [zlibDecompress, hfind, htake, hdrop, utf8Decode_encode,
      splitOnChar_append_sep ' ' kind len hkindsp, splitOnChar_no_sep ' ' len hlensp]
    rw [if_neg (by simp)]
    simp only [List.getD_cons_zero]
    rw [if_neg hkindbad.1, if_neg hkindbad.2.1, if_neg hkindbad.2.2.1, if_neg hkindbad.2.2.2]
  · intro s2 hs2
    obtain ⟨hfind, htake, hdrop⟩ := framed_destruct2 (chars "blob" ++ ' ' :: len) payload (by
      intro c hc
      rcases List.mem_append.mp hc with h1 | h1
      · exact (by decide : ∀ x ∈ chars "blob", x ≠ '\x00') c h1
      · rcases List.mem_cons.mp h1 with rfl | h2
        · decide
        · exact hlen0 c h2)
    unfold get_object
    dsimp only
    rw [getObjectPath_ge2 _ hl]
    show (match storeLookup s2 (h.take 2, h.drop 2) with
      | none => (Except.error (.fileNotFound (chars "对象不存在: " ++ h))
          : Except PyErr PyObj)
      | some compressed => _) = _
    rw [hs2]
    simp only [zlibDecompress, hfind, htake, hdrop, utf8Decode_encode,
      splitOnChar_append_sep ' ' (chars "blob") len (by decide),
      splitOnChar_no_sep ' ' len hlensp]
    rw [if_neg (by simp), if_pos (by simp)]
    unfold Blob.deserialize
    simp only [hfind, htake, hdrop, utf8Decode_encode,
      splitOnChar_append_sep ' ' (chars "blob") len (by decide),
      splitOnChar_no_sep ' ' len hlensp]
    rw [if_neg (by simp)]
    rfl


/-- C1 amended: the serialize/deserialize round trip reproduces canonical
content and hash for every blob and every well-formed tree; for commits
and tags it does so when the author/committer (resp. tagger) are empty
and the message is strip-invariant.  When the author or tagger is
non-empty the round trip fails — deserialization folds the serialized
timestamp into the author/tagger field (see the counterexample) — which
is what forces these hypotheses. -/
theorem c1_roundtrip (b : Blob) (t : Tree) (c : Commit) (g : Tag) (now : Str)
    (hw : wfTree t)
    (hca : c.author = []) (hcco : c.committer = [])
    (hctne : c.tree_hash ≠ []) (hctns : ∀ ch ∈ c.tree_hash, isPySpace ch = false)
    (hcp : c.parent_hash = none ∨
      ∃ p, c.parent_hash = some p ∧ p ≠ [] ∧ (∀ ch ∈ p, isPySpace ch = false))
    (hcm : pyStrip c.message = c.message)
    (hgt : g.tagger = [])
    (hghne : g.target_hash ≠ []) (hghns : ∀ ch ∈ g.target_hash, isPySpace ch = false)
    (hgyne : g.target_type ≠ []) (hgyns : ∀ ch ∈ g.target_type, isPySpace ch = false)
    (hgnne : g.tag_name ≠ []) (hgnns : ∀ ch ∈ g.tag_name, isPySpace ch = false)
    (hgm : pyStrip g.message = g.message) :
    (Blob.deserialize b.serialize = .ok b) ∧
    (∃ t2, Tree.deserialize (t.serialize).1 = .ok t2 ∧
      (t2.get_content).1 = (t.get_content).1 ∧ (t2.hashProp).1 = (t.hashProp).1) ∧
    (∃ c2, Commit.deserialize c.serialize now = .ok c2 ∧
      c2.content = c.content ∧ c2.hash = c.hash ∧
      c2.author = c.author ∧ c2.committer = c.committer ∧
      c2.message = c.message ∧ c2.tree_hash = c.tree_hash ∧
      c2.parent_hash = c.parent_hash) ∧
    (∃ g2, Tag.deserialize g.serialize now = .ok g2 ∧
      g2.content = g.content ∧ g2.hash = g.hash ∧
      g2.tagger = g.tagger ∧ g2.message = g.message ∧
      g2.tag_name = g.tag_name ∧ g2.target_hash = g.target_hash ∧
      g2.target_type = g.target_type) := by
  refine ⟨blob_roundtrip b, ?_, ?_, ?_⟩
  · obtain ⟨t2, hds, _, hcnt, hhash⟩ := tree_roundtrip t hw
    exact ⟨t2, hds, hcnt, hhash⟩
  · refine ⟨⟨c.tree_hash, c.parent_hash, [], [], c.message, now⟩,
      commit_roundtrip_empty c now hca hcco hctne hctns hcp hcm, ?_, ?_, ?_, ?_, ?_, ?_, ?_⟩
    · show Commit.content _ = Commit.content c
      unfold Commit.content
      simp [hca, hcco]
    · show Commit.hash _ = Commit.hash c
      unfold Commit.hash
      have hcnt : Commit.content ⟨c.tree_hash, c.parent_hash, [], [], c.message, now⟩
          = Commit.content c := by
        unfold Commit.content
        simp [hca, hcco]
      rw [hcnt]
    · exact hca.symm
    · exact hcco.symm
    · rfl
    · rfl
    · rfl
  · refine ⟨⟨g.tag_name, g.target_hash, g.target_type, [], g.message, now⟩,
      tag_roundtrip_empty g now hgt hghne hghns hgyne hgyns hgnne hgnns hgm,
      ?_, ?_, ?_, ?_, ?_, ?_, ?_⟩
    · show Tag.content _ = Tag.content g
      unfold Tag.content
      simp [hgt]
    · show Tag.hash _ = Tag.hash g
      unfold Tag.hash
      have hcnt : Tag.content ⟨g.tag_name, g.target_hash, g.target_type, [], g.message, now⟩
          = Tag.content g := by
        unfold Tag.content
        simp [hgt]
      rw [hcnt]
    · exact hgt.symm
    · rfl
    · rfl
    · rfl
    · rfl


theorem object_exists_eq (s : Store) (q : Str) (hq : 2 ≤ q.length) :
    object_exists s q = .ok ((storeLookup s (q.take 2, q.drop 2)).isSome) := by
  unfold object_exists
  rw [getObjectPath_ge2 _ hq]
  rfl

theorem path_inj (a b : Str) (_hb : 2 ≤ b.length)
    (h : (a.take 2, a.drop 2) = (b.take 2, b.drop 2)) : a = b := by
  have h1 : a.take 2 = b.take 2 := congrArg Prod.fst h
  have h2 : a.drop 2 = b.drop 2 := congrArg Prod.snd h
  calc a = a.take 2 ++ a.drop 2 := (List.take_append_drop 2 a).symm
    _ = b.take 2 ++ b.drop 2 := by rw [h1, h2]
    _ = b := List.take_append_drop 2 b

theorem bindOk {α β : Type} (a : α) (f : α → Except PyErr β) :
    (Except.ok a : Except PyErr α) >>= f = f a := rfl

theorem store_object_exists_iff (st : Store) (obj : PyObj) (hl : obj.hash.length = 40) :
    ∃ st2, store_object st obj = .ok (obj.hash, st2) ∧
    ∀ q, 2 ≤ q.length →
      (object_exists st2 q = .ok true ↔
        (object_exists st q = .ok true ∨ q = obj.hash)) := by
  rcases hp : storeLookup st (obj.hash.take 2, obj.hash.drop 2) with _ | d
  · refine ⟨_, store_object_write st obj (by omega) hp, ?_⟩
    intro q hq
    rw [object_exists_eq _ q hq, object_exists_eq st q hq, storeLookup_cons]
    by_cases hqe : q = obj.hash
    · subst hqe
      rw [if_pos (beq_self_eq_true _)]
      simp
    · rw [if_neg (by
        intro hbe
        exact hqe (path_inj q obj.hash (by omega) (eq_of_beq hbe).symm))]
      constructor
      · intro h
        exact Or.inl h
      · rintro (h | rfl)
        · exact h
        · exact absurd rfl hqe
  · refine ⟨st, store_object_skip st obj (by omega) d hp, ?_⟩
    intro q hq
    constructor
    · exact Or.inl
    · rintro (h | rfl)
      · exact h
      · rw [object_exists_eq _ _ (by omega), hp]
        rfl

theorem foldl_cacheOk {α : Type} (f : Tree → α → Tree)
    (hf : ∀ t a, cacheOk t → cacheOk (f t a)) (items : List α) :
    ∀ (t : Tree), cacheOk t → cacheOk (items.foldl f t) := by
  induction items with
  | nil => exact fun t h => h
  | cons a rest ih => exact fun t h => ih (f t a) (hf t a h)

theorem cacheOk_buildTree (fuel : Nat) (ign : List Str) (items : List (Str × FsEntry)) :
    cacheOk (buildTree fuel ign items) := by
  cases fuel with
  | zero => exact ⟨Or.inl rfl, Or.inl rfl⟩
  | succ f =>
    refine foldl_cacheOk _ ?_ items Tree.new ⟨Or.inl rfl, Or.inl rfl⟩
    intro t a hc
    by_cases hi : ign.any (fun pat => containsSub pat a.1) = true
    · dsimp only
      rw [if_pos hi]
      exact hc
    · dsimp only
      rw [if_neg hi]
      rcases a with ⟨nm, fe⟩
      cases fe with
      | file cbytes => exact ⟨Or.inl rfl, Or.inl rfl⟩
      | dir ch => exact ⟨Or.inl rfl, Or.inl rfl⟩

theorem buildTreeHash_length (fuel : Nat) (fs : List (Str × FsEntry)) :
    (((build_tree_from_directory fuel fs).hashProp).1).length = 40 := by
  unfold build_tree_from_directory
  rw [hashProp_val _ (cacheOk_buildTree fuel defaultIgnores fs)]
  exact sha1Hex_length _

theorem buildTreeHash_no_space (fuel : Nat) (fs : List (Str × FsEntry)) :
    ∀ c ∈ ((build_tree_from_directory fuel fs).hashProp).1, isPySpace c = false := by
  unfold build_tree_from_directory
  rw [hashProp_val _ (cacheOk_buildTree fuel defaultIgnores fs)]
  exact sha1Hex_no_space _

/-- C4 amended: a successful commit adds exactly two objects to the
store — the root tree and the commit; blobs and sub-trees built during
the walk are never stored (see the counterexample: after committing a
one-file working tree the blob's object file is absent). -/
theorem c4_commit_stores_only_root (s : RepoState) (fuel : Nat)
    (fs : List (Str × FsEntry)) (un ue msg : Str) (ae : Bool) (ts now : Str)
    (hmsg : pyStrip msg ≠ []) (hhead : s.head = none) :
    ∃ ch s2, Repository.commit s fuel fs un ue msg ae ts now = .ok (ch, s2) ∧
    ∀ q, 2 ≤ q.length →
      (object_exists s2.store q = .ok true ↔
        (object_exists s.store q = .ok true ∨
         q = ((build_tree_from_directory fuel fs).hashProp).1 ∨ q = ch)) := by
  have htl : (PyObj.tree (build_tree_from_directory fuel fs)).hash.length = 40 :=
    buildTreeHash_length fuel fs
  obtain ⟨st1, hso1, hiff1⟩ := store_object_exists_iff s.store
    (.tree (build_tree_from_directory fuel fs)) htl
  obtain ⟨st2, hso2, hiff2⟩ := store_object_exists_iff st1
    (.commit ⟨((build_tree_from_directory fuel fs).hashProp).1, none,
      un ++ ' ' :: '<' :: ue ++ ['>'], un ++ ' ' :: '<' :: ue ++ ['>'], msg, ts⟩)
    (commitHash_length _)
  refine ⟨(PyObj.commit ⟨((build_tree_from_directory fuel fs).hashProp).1, none,
      un ++ ' ' :: '<' :: ue ++ ['>'], un ++ ' ' :: '<' :: ue ++ ['>'], msg, ts⟩).hash,
    ⟨st2, some (chars "ref: refs/heads/main"),
     some ((PyObj.commit ⟨((build_tree_from_directory fuel fs).hashProp).1, none,
      un ++ ' ' :: '<' :: ue ++ ['>'], un ++ ' ' :: '<' :: ue ++ ['>'], msg, ts⟩).hash),
     some ((PyObj.commit ⟨((build_tree_from_directory fuel fs).hashProp).1, none,
      un ++ ' ' :: '<' :: ue ++ ['>'], un ++ ' ' :: '<' :: ue ++ ['>'], msg, ts⟩).hash)⟩,
    ?_, ?_⟩
  · simp only [Repository.commit]
    rw [if_neg hmsg]
    rw [hhead]
    dsimp only
    rw [ite_self]
    dsimp only
    rw [hso1, bindOk]
    dsimp only
    rw [hso2, bindOk]
  · intro q hq
    dsimp only
    have hth : (PyObj.tree (build_tree_from_directory fuel fs)).hash
        = ((build_tree_from_directory fuel fs).hashProp).1 := rfl
    rw [hiff2 q hq, hiff1 q hq, hth]
    exact or_assoc


theorem get_object_commit (s : Store) (h now : Str) (c : Commit)
    (hl : 2 ≤ h.length)
    (hs : storeLookup s (h.take 2, h.drop 2) = some (zlibCompress c.serialize))
    (htne : c.tree_hash ≠ []) (htns : ∀ ch ∈ c.tree_hash, isPySpace ch = false)
    (hpar : c.parent_hash = none)
    (hane : c.author ≠ []) (hcne : c.committer ≠ [])
    (hanl : ∀ ch ∈ c.author, ch ≠ '\n') (hcnl : ∀ ch ∈ c.committer, ch ≠ '\n')
    (htsnl : ∀ ch ∈ c.timestamp, ch ≠ '\n') :
    ∃ c2, get_object s h now = .ok (.commit c2) ∧ c2.tree_hash = c.tree_hash := by
  obtain ⟨c2, hde, htree⟩ :=
    commit_parse_tree c now htne htns hpar hane hcne hanl hcnl htsnl
  obtain ⟨hfind, htake, hdrop⟩ := framed_destruct (chars "commit") c.content.length
    (utf8Encode c.content) (by decide)
  refine ⟨c2, ?_, htree⟩
  rw [commit_serialize_val c] at hde
  unfold get_object
  dsimp only
  rw [getObjectPath_ge2 _ hl]
  show (match storeLookup s (h.take 2, h.drop 2) with
    | none => (Except.error (.fileNotFound (chars "对象不存在: " ++ h))
        : Except PyErr PyObj)
    | some compressed => _) = _
  rw [hs]
  simp only [zlibDecompress, zlibCompress]
  rw [commit_serialize_val c]
  simp only [hfind, htake, hdrop, utf8Decode_encode,
    header_split (chars "commit") _ (by decide)]
  rw [if_neg (by simp)]
  simp only [List.getD_cons_zero]
  rw [if_neg (by decide), if_neg (by decide), if_pos trivial, hde]
  rfl


/-- C8: starting from a fresh repository, the first commit succeeds and
advances HEAD and the branch ref to the new commit; a second commit with
the same working tree and `allow_empty=false` fails with the
`ValueError("没有变更需要提交")` guard before anything is stored or any
ref is written, so HEAD and the branch ref still point at the first
commit.  The hypothesis `hneq` rules out a SHA-1 collision between the
root tree and the commit object. -/
theorem c8_empty_commit_guard (fuel : Nat) (fs : List (Str × FsEntry))
    (un ue msg1 msg2 ts1 ts2 now : Str)
    (hmsg1 : pyStrip msg1 ≠ []) (hmsg2 : pyStrip msg2 ≠ [])
    (hanl : ∀ c ∈ un ++ ' ' :: '<' :: ue ++ ['>'], c ≠ '\n')
    (htsnl : ∀ c ∈ ts1, c ≠ '\n')
    (hneq : ((build_tree_from_directory fuel fs).hashProp).1 ≠
      Commit.hash ⟨((build_tree_from_directory fuel fs).hashProp).1, none, un ++ ' ' :: '<' :: ue ++ ['>'], un ++ ' ' :: '<' :: ue ++ ['>'], msg1, ts1⟩) :
    ∃ ch s1,
      Repository.commit RepoState.init fuel fs un ue msg1 false ts1 now
        = .ok (ch, s1) ∧
      s1.head = some ch ∧ s1.branchRef = some ch ∧
      s1.headFile = some (chars "ref: refs/heads/main") ∧
      Repository.commit s1 fuel fs un ue msg2 false ts2 now
        = .error (.valueError (chars "没有变更需要提交")) := by
  have h40p : (((build_tree_from_directory fuel fs).hashProp).1).length = 40 := buildTreeHash_length fuel fs
  have h40t : ((PyObj.tree (build_tree_from_directory fuel fs)).hash).length = 40 := buildTreeHash_length fuel fs
  have h40c : ((PyObj.commit (⟨((build_tree_from_directory fuel fs).hashProp).1, none, un ++ ' ' :: '<' :: ue ++ ['>'], un ++ ' ' :: '<' :: ue ++ ['>'], msg1, ts1⟩ : Commit)).hash).length = 40 := commitHash_length _
  have hso1 := store_object_write ([] : Store) (PyObj.tree (build_tree_from_directory fuel fs)) (by omega) rfl
  have hpne : storeLookup ((((PyObj.tree (build_tree_from_directory fuel fs)).hash.take 2, (PyObj.tree (build_tree_from_directory fuel fs)).hash.drop 2), zlibCompress (PyObj.serializeBytes (PyObj.tree (build_tree_from_directory fuel fs)))) :: ([] : Store)) ((PyObj.commit (⟨((build_tree_from_directory fuel fs).hashProp).1, none, un ++ ' ' :: '<' :: ue ++ ['>'], un ++ ' ' :: '<' :: ue ++ ['>'], msg1, ts1⟩ : Commit)).hash.take 2, (PyObj.commit (⟨((build_tree_from_directory fuel fs).hashProp).1, none, un ++ ' ' :: '<' :: ue ++ ['>'], un ++ ' ' :: '<' :: ue ++ ['>'], msg1, ts1⟩ : Commit)).hash.drop 2) = none := by
    have hTC : ¬(((PyObj.tree (build_tree_from_directory fuel fs)).hash.take 2, (PyObj.tree (build_tree_from_directory fuel fs)).hash.drop 2) == ((PyObj.commit (⟨((build_tree_from_directory fuel fs).hashProp).1, none, un ++ ' ' :: '<' :: ue ++ ['>'], un ++ ' ' :: '<' :: ue ++ ['>'], msg1, ts1⟩ : Commit)).hash.take 2, (PyObj.commit (⟨((build_tree_from_directory fuel fs).hashProp).1, none, un ++ ' ' :: '<' :: ue ++ ['>'], un ++ ' ' :: '<' :: ue ++ ['>'], msg1, ts1⟩ : Commit)).hash.drop 2)) = true := by
      intro hbe
      exact hneq (path_inj (PyObj.tree (build_tree_from_directory fuel fs)).hash (PyObj.commit (⟨((build_tree_from_directory fuel fs).hashProp).1, none, un ++ ' ' :: '<' :: ue ++ ['>'], un ++ ' ' :: '<' :: ue ++ ['>'], msg1, ts1⟩ : Commit)).hash (by omega) (eq_of_beq hbe))
    rw [storeLookup_cons, if_neg hTC]
    rfl
  have hso2 := store_object_write ((((PyObj.tree (build_tree_from_directory fuel fs)).hash.take 2, (PyObj.tree (build_tree_from_directory fuel fs)).hash.drop 2), zlibCompress (PyObj.serializeBytes (PyObj.tree (build_tree_from_directory fuel fs)))) :: ([] : Store)) (PyObj.commit (⟨((build_tree_from_directory fuel fs).hashProp).1, none, un ++ ' ' :: '<' :: ue ++ ['>'], un ++ ' ' :: '<' :: ue ++ ['>'], msg1, ts1⟩ : Commit)) (by omega) hpne
  have hlook : storeLookup ((((PyObj.commit (⟨((build_tree_from_directory fuel fs).hashProp).1, none, un ++ ' ' :: '<' :: ue ++ ['>'], un ++ ' ' :: '<' :: ue ++ ['>'], msg1, ts1⟩ : Commit)).hash.take 2, (PyObj.commit (⟨((build_tree_from_directory fuel fs).hashProp).1, none, un ++ ' ' :: '<' :: ue ++ ['>'], un ++ ' ' :: '<' :: ue ++ ['>'], msg1, ts1⟩ : Commit)).hash.drop 2), zlibCompress (PyObj.serializeBytes (PyObj.commit (⟨((build_tree_from_directory fuel fs).hashProp).1, none, un ++ ' ' :: '<' :: ue ++ ['>'], un ++ ' ' :: '<' :: ue ++ ['>'], msg1, ts1⟩ : Commit)))) :: ((((PyObj.tree (build_tree_from_directory fuel fs)).hash.take 2, (PyObj.tree (build_tree_from_directory fuel fs)).hash.drop 2), zlibCompress (PyObj.serializeBytes (PyObj.tree (build_tree_from_directory fuel fs)))) :: ([] : Store))) ((PyObj.commit (⟨((build_tree_from_directory fuel fs).hashProp).1, none, un ++ ' ' :: '<' :: ue ++ ['>'], un ++ ' ' :: '<' :: ue ++ ['>'], msg1, ts1⟩ : Commit)).hash.take 2, (PyObj.commit (⟨((build_tree_from_directory fuel fs).hashProp).1, none, un ++ ' ' :: '<' :: ue ++ ['>'], un ++ ' ' :: '<' :: ue ++ ['>'], msg1, ts1⟩ : Commit)).hash.drop 2)
      = some (zlibCompress (Commit.serialize (⟨((build_tree_from_directory fuel fs).hashProp).1, none, un ++ ' ' :: '<' :: ue ++ ['>'], un ++ ' ' :: '<' :: ue ++ ['>'], msg1, ts1⟩ : Commit))) := by
    rw [storeLookup_cons, if_pos (beq_self_eq_true _)]
    rfl
  have htne2 : ((build_tree_from_directory fuel fs).hashProp).1 ≠ [] := by
    intro hnil
    rw [hnil] at h40p
    exact absurd h40p (by decide)
  have hane2 : (un ++ ' ' :: '<' :: ue ++ ['>']) ≠ [] := by
    intro h0
    rcases List.append_eq_nil.mp h0 with ⟨h1, h2⟩
    exact List.cons_ne_nil _ _ h2
  obtain ⟨c2, hgo, htree⟩ := get_object_commit ((((PyObj.commit (⟨((build_tree_from_directory fuel fs).hashProp).1, none, un ++ ' ' :: '<' :: ue ++ ['>'], un ++ ' ' :: '<' :: ue ++ ['>'], msg1, ts1⟩ : Commit)).hash.take 2, (PyObj.commit (⟨((build_tree_from_directory fuel fs).hashProp).1, none, un ++ ' ' :: '<' :: ue ++ ['>'], un ++ ' ' :: '<' :: ue ++ ['>'], msg1, ts1⟩ : Commit)).hash.drop 2), zlibCompress (PyObj.serializeBytes (PyObj.commit (⟨((build_tree_from_directory fuel fs).hashProp).1, none, un ++ ' ' :: '<' :: ue ++ ['>'], un ++ ' ' :: '<' :: ue ++ ['>'], msg1, ts1⟩ : Commit)))) :: ((((PyObj.tree (build_tree_from_directory fuel fs)).hash.take 2, (PyObj.tree (build_tree_from_directory fuel fs)).hash.drop 2), zlibCompress (PyObj.serializeBytes (PyObj.tree (build_tree_from_directory fuel fs)))) :: ([] : Store))) ((PyObj.commit (⟨((build_tree_from_directory fuel fs).hashProp).1, none, un ++ ' ' :: '<' :: ue ++ ['>'], un ++ ' ' :: '<' :: ue ++ ['>'], msg1, ts1⟩ : Commit)).hash) now (⟨((build_tree_from_directory fuel fs).hashProp).1, none, un ++ ' ' :: '<' :: ue ++ ['>'], un ++ ' ' :: '<' :: ue ++ ['>'], msg1, ts1⟩ : Commit)
    (by omega) hlook htne2 (buildTreeHash_no_space fuel fs) rfl
    hane2 hane2 hanl hanl htsnl
  have hcond : c2.tree_hash = ((build_tree_from_directory fuel fs).hashProp).1 := htree
  refine ⟨(PyObj.commit (⟨((build_tree_from_directory fuel fs).hashProp).1, none, un ++ ' ' :: '<' :: ue ++ ['>'], un ++ ' ' :: '<' :: ue ++ ['>'], msg1, ts1⟩ : Commit)).hash,
    ⟨(((PyObj.commit (⟨((build_tree_from_directory fuel fs).hashProp).1, none, un ++ ' ' :: '<' :: ue ++ ['>'], un ++ ' ' :: '<' :: ue ++ ['>'], msg1, ts1⟩ : Commit)).hash.take 2, (PyObj.commit (⟨((build_tree_from_directory fuel fs).hashProp).1, none, un ++ ' ' :: '<' :: ue ++ ['>'], un ++ ' ' :: '<' :: ue ++ ['>'], msg1, ts1⟩ : Commit)).hash.drop 2), zlibCompress (PyObj.serializeBytes (PyObj.commit (⟨((build_tree_from_directory fuel fs).hashProp).1, none, un ++ ' ' :: '<' :: ue ++ ['>'], un ++ ' ' :: '<' :: ue ++ ['>'], msg1, ts1⟩ : Commit)))) :: ((((PyObj.tree (build_tree_from_directory fuel fs)).hash.take 2, (PyObj.tree (build_tree_from_directory fuel fs)).hash.drop 2), zlibCompress (PyObj.serializeBytes (PyObj.tree (build_tree_from_directory fuel fs)))) :: ([] : Store)), some (chars "ref: refs/heads/main"), some ((PyObj.commit (⟨((build_tree_from_directory fuel fs).hashProp).1, none, un ++ ' ' :: '<' :: ue ++ ['>'], un ++ ' ' :: '<' :: ue ++ ['>'], msg1, ts1⟩ : Commit)).hash), some ((PyObj.commit (⟨((build_tree_from_directory fuel fs).hashProp).1, none, un ++ ' ' :: '<' :: ue ++ ['>'], un ++ ' ' :: '<' :: ue ++ ['>'], msg1, ts1⟩ : Commit)).hash)⟩,
    ?_, rfl, rfl, rfl, ?_⟩
  · simp only [Repository.commit, RepoState.init]
    rw [if_neg hmsg1]
    rw [ite_self]
    dsimp only
    rw [hso1, bindOk]
    dsimp only
    rw [hso2, bindOk]
  · unfold Repository.commit
    rw [if_neg hmsg2]
    dsimp only
    rw [Bool.not_false]
    rw [if_pos (rfl : true = true)]
    rw [hgo]
    dsimp only
    rw [if_pos hcond]


/-- C1 counterexample: a commit with non-empty author "u" and timestamp
"t" deserializes with author "u t" — the serialized timestamp is folded
back into the author field, so the round trip does not reproduce the
author. -/
theorem c1_counterexample :
    (Commit.deserialize
        (Commit.serialize ⟨chars "ab", none, chars "u", chars "u", chars "m", chars "t"⟩)
        []).map Commit.author = .ok (chars "u t") ∧
    chars "u t" ≠ chars "u" := by decide

theorem c1_roundtrip_witness :
    Blob.deserialize (Blob.mk [104]).serialize = .ok (Blob.mk [104]) :=
  (c1_roundtrip (Blob.mk [104]) ⟨[], none, none⟩
    ⟨chars "ab", none, [], [], [], []⟩ ⟨chars "v", chars "ab", chars "commit", [], [], []⟩ []
    ⟨fun e he => absurd he (List.not_mem_nil e), List.Pairwise.nil, Or.inl rfl, Or.inl rfl⟩
    rfl rfl (by decide) (by decide) (Or.inl rfl) rfl
    rfl (by decide) (by decide) (by decide) (by decide) (by decide) (by decide) rfl).1

theorem c2_modified_check_witness :
    is_file_modified
      [⟨chars "a", chars "100644", chars "zz", 1, 5, 0⟩]
      (fun p => if p == chars "a" then some ⟨[121], 6⟩ else none)
      (chars "a") = true :=
  (c2_modified_check
    [⟨chars "a", chars "100644", chars "zz", 1, 5, 0⟩]
    (fun p => if p == chars "a" then some ⟨[121], 6⟩ else none)
    (chars "a")
    ⟨chars "a", chars "100644", chars "zz", 1, 5, 0⟩ ⟨[121], 6⟩
    rfl rfl).1 (Or.inl (by decide))

/-- C4 counterexample: committing a working tree holding one file "f"
stores the root tree and the commit, but not the blob of "f" — the
blob's object file is absent afterwards, contradicting the claim that
every blob reachable from the committed root exists in the store. -/
theorem c4_counterexample :
    (Repository.commit RepoState.init 2 [(chars "f", FsEntry.file [97])]
        (chars "u") (chars "e") (chars "m") false (chars "t") []).map
      (fun r => object_exists r.2.store (Blob.mk [97]).hash)
      = .ok (.ok false) := by decide

theorem c4_commit_stores_only_root_witness :
    ∃ ch s2, Repository.commit RepoState.init 0 [] (chars "u") (chars "e")
        (chars "m") false (chars "t") [] = .ok (ch, s2) ∧
      ∀ q, 2 ≤ q.length →
        (object_exists s2.store q = .ok true ↔
          (object_exists RepoState.init.store q = .ok true ∨
           q = ((build_tree_from_directory 0 []).hashProp).1 ∨ q = ch)) :=
  c4_commit_stores_only_root RepoState.init 0 [] (chars "u") (chars "e")
    (chars "m") false (chars "t") [] (by decide) rfl

/-- C5 counterexample: an object file whose header declares length 999
but whose payload has two bytes is accepted by `get_object` and returned
as a blob of those two bytes — the declared length is never checked. -/
theorem c5_counterexample :
    get_object [((chars "ab", chars "cd"),
        utf8Encode (chars "blob 999") ++ 0 :: [97, 98])] (chars "abcd") []
      = .ok (.blob ⟨[97, 98]⟩) := by decide

theorem c5_get_object_errors_witness :
    get_object [] (chars "ab") [] =
      .error (.fileNotFound (chars "对象不存在: " ++ chars "ab")) :=
  (c5_get_object_errors [] (chars "ab") [] [1, 2, 3] (chars "x") (chars "xyz")
    (chars "5") [7, 8] (by decide) rfl rfl (by decide) (by decide) (by decide)
    (by decide) (by decide) (by decide) (by decide)).1

theorem c6_dedup_witness :
    store_object
      [(((PyObj.blob ⟨[97]⟩).hash.take 2, (PyObj.blob ⟨[97]⟩).hash.drop 2), [5])]
      (PyObj.blob ⟨[97]⟩)
      = .ok ((PyObj.blob ⟨[97]⟩).hash,
        [(((PyObj.blob ⟨[97]⟩).hash.take 2, (PyObj.blob ⟨[97]⟩).hash.drop 2), [5])]) :=
  (c6_dedup
    [(((PyObj.blob ⟨[97]⟩).hash.take 2, (PyObj.blob ⟨[97]⟩).hash.drop 2), [5])]
    (PyObj.blob ⟨[97]⟩) [5] [97]
    (by show 2 ≤ (Blob.mk [97]).hash.length
        rw [blobHash_length]
        omega)
    (by rw [storeLookup_cons, if_pos (beq_self_eq_true _)])).1

/-- C7 counterexample: two entries with the same name "n" and different
hashes — adding A then B keeps B while adding B then A keeps A, so the
two insertion orders give different tree hashes. -/
theorem c7_counterexample :
    (((Tree.new.add_entry ⟨chars "100644", chars "blob", chars "aaaa", chars "n"⟩).add_entry
        ⟨chars "100644", chars "blob", chars "bbbb", chars "n"⟩).hashProp).1 ≠
    (((Tree.new.add_entry ⟨chars "100644", chars "blob", chars "bbbb", chars "n"⟩).add_entry
        ⟨chars "100644", chars "blob", chars "aaaa", chars "n"⟩).hashProp).1 := by decide

theorem c7_order_independence_witness :
    (((Tree.new.add_entry ⟨chars "100644", chars "blob", chars "aaaa", chars "x"⟩).add_entry
        ⟨chars "100644", chars "blob", chars "bbbb", chars "y"⟩).hashProp).1 =
    (((Tree.new.add_entry ⟨chars "100644", chars "blob", chars "bbbb", chars "y"⟩).add_entry
        ⟨chars "100644", chars "blob", chars "aaaa", chars "x"⟩).hashProp).1 :=
  c7_order_independence
    ⟨chars "100644", chars "blob", chars "aaaa", chars "x"⟩
    ⟨chars "100644", chars "blob", chars "bbbb", chars "y"⟩ (by decide)

theorem c8_empty_commit_guard_witness :
    ∃ ch s1,
      Repository.commit RepoState.init 1 [] (chars "u") (chars "e") (chars "m")
          false (chars "t") [] = .ok (ch, s1) ∧
      s1.head = some ch ∧ s1.branchRef = some ch ∧
      s1.headFile = some (chars "ref: refs/heads/main") ∧
      Repository.commit s1 1 [] (chars "u") (chars "e") (chars "n") false [] []
        = .error (.valueError (chars "没有变更需要提交")) :=
  c8_empty_commit_guard 1 [] (chars "u") (chars "e") (chars "m") (chars "n")
    (chars "t") [] [] (by decide) (by decide) (by decide) (by decide) (by decide)

theorem c9_no_stale_hash_witness :
    ((applyOps Tree.new [TreeOp.addBlob ⟨[97]⟩ (chars "f") (chars "100644"),
        TreeOp.removeEntry (chars "f")]).hashProp).1 =
      hashObjectStr (chars "tree")
        (treeContent (applyOps Tree.new [TreeOp.addBlob ⟨[97]⟩ (chars "f") (chars "100644"),
          TreeOp.removeEntry (chars "f")]).entries) ∧
    cacheOk (applyOps Tree.new [TreeOp.addBlob ⟨[97]⟩ (chars "f") (chars "100644"),
        TreeOp.removeEntry (chars "f")]) :=
  c9_no_stale_hash Tree.new
    [TreeOp.addBlob ⟨[97]⟩ (chars "f") (chars "100644"),
     TreeOp.removeEntry (chars "f")] ⟨Or.inl rfl, Or.inl rfl⟩

theorem c10_untracked_and_missing_witness :
    is_file_modified [] (fun _ => none) (chars "a") = false ∧
    is_file_modified [⟨chars "a", chars "100644", chars "zz", 1, 5, 0⟩]
      (fun _ => none) (chars "a") = true :=
  ⟨(c10_untracked_and_missing [] (fun _ => none) (chars "a")).1 rfl,
   (c10_untracked_and_missing [⟨chars "a", chars "100644", chars "zz", 1, 5, 0⟩]
      (fun _ => none) (chars "a")).2
     ⟨chars "a", chars "100644", chars "zz", 1, 5, 0⟩ rfl rfl⟩

end PyGit
